import Mathlib

/-!
Verification development for the rexml streaming XML tokenizer/parser.

The development shallowly embeds two layers of the repository:

* the byte-level lexer of `src/reader/lexer.rs` (`XmLexer` and its
  scanners), translated over `List Nat` byte strings; and
* the `parserc`-combinator based grammar-rule parsers of
  `src/reader/misc.rs`, `src/reader/attr.rs`, `src/reader/element.rs`
  and `src/reader.rs`, translated over a character cursor.

Rust loops are translated into structurally recursive functions over an
explicit fuel argument; every entry point instantiates the fuel with the
number of unread characters, and each zero-fuel case is chosen to agree
with the end-of-input behaviour of the corresponding Rust loop, so the
fuel is semantically invisible.  Rust `expect`/`unwrap`/`assert!` sites
are translated into an explicit `panicked` outcome.
-/

namespace Rexml

/-- Token span in the source code, from `lexer.rs` (`XmlSpan`): byte
offset plus length. -/
structure XmlSpan where
  offset : Nat
  len : Nat
deriving DecidableEq, Repr

/-- From `XmlSpan::extend_to`: extend `s` to `o`'s start offset.  The
Rust code asserts `s.offset <= o.offset`; natural subtraction models the
in-bounds case. -/
def XmlSpan.extend_to (s o : XmlSpan) : XmlSpan :=
  ⟨s.offset, o.offset - s.offset⟩

/-- From `XmlSpan::extend_to_inclusive`: extend `s` to `o`'s end offset. -/
def XmlSpan.extend_to_inclusive (s o : XmlSpan) : XmlSpan :=
  ⟨s.offset, o.offset + o.len - s.offset⟩

/-- Errors raised by the lexer, from `lexer.rs` (`LexerError`).  The
`QuoteStr` variant stores the quote byte. -/
inductive LexerError where
  | Name : XmlSpan → LexerError
  | CData : XmlSpan → LexerError
  | Comment : XmlSpan → LexerError
  | DocType : XmlSpan → LexerError
  | PIEnd : XmlSpan → LexerError
  | EmptyTag : XmlSpan → LexerError
  | QuoteStr : Nat → XmlSpan → LexerError
deriving DecidableEq, Repr

/-- Variants of xml tokens, from `lexer.rs` (`XmlToken`). -/
inductive XmlToken where
  | ElementOpenStartTag : XmlSpan → XmlToken
  | ElementCloseStartTag : XmlSpan → XmlToken
  | EndTag : XmlSpan → XmlToken
  | EmptyTag : XmlSpan → XmlToken
  | PIStart : XmlSpan → XmlToken
  | PIEnd : XmlSpan → XmlToken
  | CData : XmlSpan → XmlToken
  | Comment : XmlSpan → XmlToken
  | WS : XmlSpan → XmlToken
  | CharData : XmlSpan → XmlToken
  | Name : XmlSpan → XmlToken
  | DocType : XmlSpan → XmlToken
  | QuoteStr : XmlSpan → XmlToken
  | Eq : XmlSpan → XmlToken
deriving DecidableEq, Repr

/-- The span carried by a token (used as `token.span()` by the reader). -/
def XmlToken.span : XmlToken → XmlSpan
  | .ElementOpenStartTag s => s
  | .ElementCloseStartTag s => s
  | .EndTag s => s
  | .EmptyTag s => s
  | .PIStart s => s
  | .PIEnd s => s
  | .CData s => s
  | .Comment s => s
  | .WS s => s
  | .CharData s => s
  | .Name s => s
  | .DocType s => s
  | .QuoteStr s => s
  | .Eq s => s

/-- Read state of the lexer, from `lexer.rs` (`XmLexerState`). -/
inductive XmLexerState where
  | Markup
  | CharData
deriving DecidableEq, Repr

/-- The lexer for xml documents, from `lexer.rs` (`XmLexer`): read
state, input fragment (as bytes), the span of the fragment, and the
cursor offset inside the fragment. -/
structure XmLexer where
  state : XmLexerState
  input : List Nat
  span : XmlSpan
  offset : Nat
deriving DecidableEq, Repr

/-- Bytes of an ASCII string (test inputs are ASCII, where UTF-8 bytes
and code points coincide). -/
def bytesOf (s : String) : List Nat := s.data.map Char.toNat

/-- `XmLexer::new` over a fresh zero-based span (the `From<&str>` impl). -/
def XmLexer.fromStr (s : String) : XmLexer :=
  ⟨.Markup, bytesOf s, ⟨0, (bytesOf s).length⟩, 0⟩

/-- `XmLexer::new` over an explicit byte list (used for inputs holding
quote characters). -/
def XmLexer.ofBytes (bs : List Nat) : XmLexer :=
  ⟨.Markup, bs, ⟨0, bs.length⟩, 0⟩

/-- From `XmLexer::remaining`. -/
def XmLexer.remaining (lx : XmLexer) : Nat := lx.span.len - lx.offset

/-- From `XmLexer::peek`: next byte without advancing; `none` at end of
input. -/
def XmLexer.peek (lx : XmLexer) : Option Nat :=
  if lx.offset = lx.span.len then none else some (lx.input.getD lx.offset 0)

/-- Advance the cursor one byte (used by `XmLexer::next` after a
successful peek). -/
def XmLexer.bump (lx : XmLexer) : XmLexer := { lx with offset := lx.offset + 1 }

/-- From `XmLexer::next`: next byte, advancing the cursor on success. -/
def XmLexer.nextB (lx : XmLexer) : Option Nat × XmLexer :=
  match lx.peek with
  | some c => (some c, lx.bump)
  | none => (none, lx)

/-- From `XmLexer::next_span`: span of the next byte; length 0 at end of
input. -/
def XmLexer.next_span (lx : XmLexer) : XmlSpan :=
  ⟨lx.span.offset + lx.offset, if 0 < lx.remaining then 1 else 0⟩

/-- From `XmLexer::seek`: move the cursor to an absolute offset. -/
def XmLexer.seek (lx : XmLexer) (o : Nat) : XmLexer :=
  { lx with offset := o - lx.span.offset }

/-- From `XmLexer::unparsed_bytes_with`: unread bytes, up to `n`. -/
def XmLexer.unparsed_bytes_with (lx : XmLexer) (n : Nat) : List Nat :=
  (lx.input.drop lx.offset).take n

/-- From `lexer.rs` `is_ws`: space, tab, carriage return, line feed. -/
def is_ws (c : Nat) : Bool :=
  c = 0x20 ∨ c = 0x09 ∨ c = 0x0d ∨ c = 0x0a

/-- From `lexer.rs` `is_markup_char`. -/
def is_markup_char (c : Nat) : Bool :=
  c = 60 ∨ c = 62 ∨ c = 47 ∨ c = 63 ∨ c = 39 ∨ c = 34

/-- Outcome of a lexer routine: a value, a `LexerError`, or a Rust
panic (failed `expect`, `unwrap` or `assert!`). -/
inductive LexOut (α : Type) where
  | ok : α → LexOut α
  | err : LexerError → LexOut α
  | panicked : LexOut α
deriving DecidableEq, Repr

/-- Map over the success value of a lexer outcome. -/
def LexOut.map {α β : Type} (f : α → β) : LexOut α → LexOut β
  | .ok a => .ok (f a)
  | .err e => .err e
  | .panicked => .panicked

/-- Loop body of `XmLexer::next_ws`: consume while whitespace. -/
def nextWsLoop : Nat → XmLexer → XmLexer
  | 0, lx => lx
  | n + 1, lx =>
    match lx.peek with
    | some c => if is_ws c then nextWsLoop n lx.bump else lx
    | none => lx

/-- From `XmLexer::next_ws`: whitespace token, or `none` when no
whitespace is pending.  Panics when the lexer is not in `Markup` state
(the Rust `assert_eq!`). -/
def XmLexer.next_ws (lx : XmLexer) : LexOut (Option XmlToken) × XmLexer :=
  if lx.state ≠ .Markup then (.panicked, lx) else
  let start : XmlSpan := { lx.next_span with len := 0 }
  let lx1 := nextWsLoop lx.remaining lx
  let sp := start.extend_to lx1.next_span
  if 0 < sp.len then (.ok (some (.WS sp)), lx1) else (.ok none, lx1)

/-- Loop body of `XmLexer::next_name`: consume until whitespace, markup
char or the equals sign. -/
def nextNameLoop : Nat → XmLexer → XmLexer
  | 0, lx => lx
  | n + 1, lx =>
    match lx.peek with
    | some c =>
      if is_ws c ∨ is_markup_char c ∨ c = 61 then lx else nextNameLoop n lx.bump
    | none => lx

/-- From `XmLexer::next_name`.  The Rust code unconditionally consumes
the first byte (`self.next().expect(..)`, a panic on empty input) and
reports `LexerError::Name` without rewinding when that byte may not
start a name. -/
def XmLexer.next_name (lx : XmLexer) : LexOut XmlToken × XmLexer :=
  if lx.state ≠ .Markup then (.panicked, lx) else
  let start : XmlSpan := { lx.next_span with len := 0 }
  match lx.nextB with
  | (none, lx1) => (.panicked, lx1)
  | (some c, lx1) =>
    if is_ws c ∨ is_markup_char c ∨ c = 45 ∨ c = 46 ∨ c = 61 then
      (.err (.Name start), lx1)
    else
      let lx2 := nextNameLoop lx1.remaining lx1
      (.ok (.Name (start.extend_to lx2.next_span)), lx2)

/-- Loop body of `XmLexer::next_chardata`: consume until an opening
angle bracket. -/
def nextChardataLoop : Nat → XmLexer → XmLexer
  | 0, lx => lx
  | n + 1, lx =>
    match lx.peek with
    | some c => if c = 60 then lx else nextChardataLoop n lx.bump
    | none => lx

/-- From `XmLexer::next_chardata`: character data up to the next markup
opening; switches the lexer to `Markup` state. -/
def XmLexer.next_chardata (lx : XmLexer) : LexOut (Option XmlToken) × XmLexer :=
  if lx.state ≠ .CharData then (.panicked, lx) else
  let start : XmlSpan := { lx.next_span with len := 0 }
  let lx1 := nextChardataLoop lx.remaining lx
  let sp := start.extend_to lx1.next_span
  let lx2 := { lx1 with state := .Markup }
  if 0 < sp.len then (.ok (some (.CharData sp)), lx2) else (.ok none, lx2)

mutual

/-- Outer scanning loop shared shape of `XmLexer::next_cdata` /
`next_comment`: consume bytes until the marker byte (`]` or `-`). -/
def markerScan (marker : Nat) (mkTok : XmlSpan → XmlToken)
    (mkErr : XmlSpan → LexerError) :
    Nat → XmlSpan → XmLexer → LexOut XmlToken × XmLexer
  | 0, start, lx => (.err (mkErr start), lx)
  | n + 1, start, lx =>
    match lx.nextB with
    | (none, lx1) => (.err (mkErr start), lx1)
    | (some c, lx1) =>
      if c = marker then
        let markers : XmlSpan :=
          { lx1.next_span with offset := lx1.next_span.offset - 1 }
        markerRun marker mkTok mkErr n start markers lx1
      else
        markerScan marker mkTok mkErr n start lx1

/-- Inner loop of `next_cdata` / `next_comment`: consume the marker run;
on the first non-marker byte decide whether the construct terminates
(run longer than one marker immediately followed by the closing angle
bracket), trimming the trailing markers. -/
def markerRun (marker : Nat) (mkTok : XmlSpan → XmlToken)
    (mkErr : XmlSpan → LexerError) :
    Nat → XmlSpan → XmlSpan → XmLexer → LexOut XmlToken × XmLexer
  | 0, start, _, lx => (.err (mkErr start), lx)
  | n + 1, start, markers, lx =>
    match lx.nextB with
    | (none, lx1) => (.err (mkErr start), lx1)
    | (some c, lx1) =>
      if c = marker then
        markerRun marker mkTok mkErr n start markers lx1
      else
        let e := lx1.next_span
        let m := markers.extend_to e
        if 2 < m.len ∧ c = 62 then
          let tok := mkTok (start.extend_to_inclusive { m with len := m.len - 3 })
          (.ok tok, { lx1 with state := .CharData })
        else
          markerScan marker mkTok mkErr n start lx1

end

/-- From `XmLexer::next_cdata`: recognize `<![CDATA[` ... `]]>`; returns
`none` (without advancing) when the input does not start with the
`<![CDATA[` keyword. -/
def XmLexer.next_cdata (lx : XmLexer) : LexOut (Option XmlToken) × XmLexer :=
  if lx.state ≠ .Markup then (.panicked, lx) else
  if lx.remaining < 9 then (.ok none, lx) else
  if lx.unparsed_bytes_with 9 ≠ bytesOf "<![CDATA[" then (.ok none, lx) else
  let start : XmlSpan := { offset := lx.next_span.offset + 9, len := 0 }
  let lx1 := lx.seek start.offset
  match markerScan 93 XmlToken.CData LexerError.CData lx1.remaining start lx1 with
  | (.ok tok, lx2) => (.ok (some tok), lx2)
  | (.err e, lx2) => (.err e, lx2)
  | (.panicked, lx2) => (.panicked, lx2)

/-- From `XmLexer::next_comment`: recognize `<!--` ... `-->`; returns
`none` (without advancing) when the input does not start with `<!--`. -/
def XmLexer.next_comment (lx : XmLexer) : LexOut (Option XmlToken) × XmLexer :=
  if lx.state ≠ .Markup then (.panicked, lx) else
  if lx.remaining < 4 then (.ok none, lx) else
  if lx.unparsed_bytes_with 4 ≠ bytesOf "<!--" then (.ok none, lx) else
  let start : XmlSpan := { offset := lx.next_span.offset + 4, len := 0 }
  let lx1 := lx.seek start.offset
  match markerScan 45 XmlToken.Comment LexerError.Comment lx1.remaining start lx1 with
  | (.ok tok, lx2) => (.ok (some tok), lx2)
  | (.err e, lx2) => (.err e, lx2)
  | (.panicked, lx2) => (.panicked, lx2)

/-- Loop body of `XmLexer::next_quote_str`: consume until the matching
quote byte; at end of input report the unterminated-quote error with
the span scanned so far. -/
def quoteStrLoop (q : Nat) (start : XmlSpan) :
    Nat → XmLexer → LexOut XmlToken × XmLexer
  | 0, lx => (.err (.QuoteStr q (start.extend_to lx.next_span)), lx)
  | n + 1, lx =>
    match lx.nextB with
    | (none, lx1) => (.err (.QuoteStr q (start.extend_to lx1.next_span)), lx1)
    | (some c, lx1) =>
      if c = q then
        let e : XmlSpan := { lx1.next_span with offset := lx1.next_span.offset - 1 }
        (.ok (.QuoteStr (start.extend_to e)), lx1)
      else
        quoteStrLoop q start n lx1

/-- From `XmLexer::next_quote_str`.  The Rust code `unwrap`s the first
byte and `assert!`s that it is a quote, so both an empty input and a
non-quote first byte panic. -/
def XmLexer.next_quote_str (lx : XmLexer) : LexOut XmlToken × XmLexer :=
  if lx.state ≠ .Markup then (.panicked, lx) else
  match lx.nextB with
  | (none, lx1) => (.panicked, lx1)
  | (some q, lx1) =>
    if q = 39 ∨ q = 34 then
      let start : XmlSpan := { lx1.next_span with len := 0 }
      quoteStrLoop q start lx1.remaining lx1
    else (.panicked, lx1)

/-- Loop body of `XmLexer::next_doc_type`: nesting counter `unclosed`
starts at 1, `<` increments, `>` decrements, quoted substrings are
skipped wholesale through `next_quote_str` (result discarded); when the
counter reaches 0 the span from `start` up to the final `>` (exclusive)
is returned. -/
def docTypeLoop (start : XmlSpan) :
    Nat → Nat → XmLexer → Option XmlToken × XmLexer
  | 0, _, lx => (none, lx)
  | n + 1, unclosed, lx =>
    match lx.peek with
    | none => (none, lx)
    | some c =>
      if c = 34 ∨ c = 39 then
        docTypeLoop start n unclosed (XmLexer.next_quote_str lx).2
      else
        let lx1 := lx.bump
        if c = 60 then
          docTypeLoop start n (unclosed + 1) lx1
        else if c = 62 then
          if unclosed - 1 = 0 then
            let e : XmlSpan := { lx1.next_span with offset := lx1.next_span.offset - 1 }
            (some (.DocType (start.extend_to e)), { lx1 with state := .CharData })
          else
            docTypeLoop start n (unclosed - 1) lx1
        else
          docTypeLoop start n unclosed lx1

/-- From `XmLexer::next_doc_type`: recognize `<!DOCTYPE` ... `>` with
balanced angle brackets; `none` when the keyword does not match or the
input ends before the counter reaches zero. -/
def XmLexer.next_doc_type (lx : XmLexer) : LexOut (Option XmlToken) × XmLexer :=
  if lx.state ≠ .Markup then (.panicked, lx) else
  if lx.remaining < 9 then (.ok none, lx) else
  if lx.unparsed_bytes_with 9 ≠ bytesOf "<!DOCTYPE" then (.ok none, lx) else
  let start : XmlSpan := { offset := lx.next_span.offset + 9, len := 0 }
  let lx1 := lx.seek start.offset
  let r := docTypeLoop start lx1.remaining 1 lx1
  (.ok r.1, r.2)

/-- From `XmLexer::next_pi_start`: recognize a `<?` keyword; `none`
without advancing otherwise. -/
def XmLexer.next_pi_start (lx : XmLexer) : LexOut (Option XmlToken) × XmLexer :=
  if lx.state ≠ .Markup then (.panicked, lx) else
  if lx.remaining < 2 then (.ok none, lx) else
  if lx.unparsed_bytes_with 2 ≠ bytesOf "<?" then (.ok none, lx) else
  let sp : XmlSpan := { lx.next_span with len := 2 }
  (.ok (some (.PIStart sp)), lx.seek (sp.offset + 2))

/-- From `XmLexer::next_pi_end`: expect the `?>` keyword. -/
def XmLexer.next_pi_end (lx : XmLexer) : LexOut XmlToken × XmLexer :=
  if lx.remaining < 2 then (.err (.PIEnd lx.next_span), lx) else
  if lx.unparsed_bytes_with 2 ≠ bytesOf "?>" then (.err (.PIEnd lx.next_span), lx) else
  let sp : XmlSpan := { lx.next_span with len := 2 }
  (.ok (.PIEnd sp), lx.seek (sp.offset + 2))

/-- From `XmLexer::next_element_close_start_tag`: recognize a `</`
keyword; `none` without advancing otherwise. -/
def XmLexer.next_element_close_start_tag (lx : XmLexer) :
    LexOut (Option XmlToken) × XmLexer :=
  if lx.remaining < 2 then (.ok none, lx) else
  if lx.unparsed_bytes_with 2 ≠ bytesOf "</" then (.ok none, lx) else
  let sp : XmlSpan := { lx.next_span with len := 2 }
  (.ok (some (.ElementCloseStartTag sp)), lx.seek (sp.offset + 2))

/-- From `XmLexer::next_empty_tag`: expect the `/>` keyword. -/
def XmLexer.next_empty_tag (lx : XmLexer) : LexOut XmlToken × XmLexer :=
  if lx.remaining < 2 then (.err (.EmptyTag lx.next_span), lx) else
  if lx.unparsed_bytes_with 2 ≠ bytesOf "/>" then (.err (.EmptyTag lx.next_span), lx) else
  let sp : XmlSpan := { lx.next_span with len := 2 }
  (.ok (.EmptyTag sp), lx.seek (sp.offset + 2))

/-- Markup-state dispatch of `XmLexer::next_token`. -/
def XmLexer.next_token_markup (lx : XmLexer) : LexOut (Option XmlToken) × XmLexer :=
  match lx.peek with
  | some 60 =>
    match lx.next_cdata with
    | (.ok (some t), lx1) => (.ok (some t), lx1)
    | (.ok none, lx1) =>
      match lx1.next_comment with
      | (.ok (some t), lx2) => (.ok (some t), lx2)
      | (.ok none, lx2) =>
        match lx2.next_pi_start with
        | (.ok (some t), lx3) => (.ok (some t), lx3)
        | (.ok none, lx3) =>
          match lx3.next_element_close_start_tag with
          | (.ok (some t), lx4) => (.ok (some t), lx4)
          | (.ok none, lx4) =>
            let sp := lx4.next_span
            (.ok (some (.ElementOpenStartTag sp)), lx4.bump)
          | (r, lx4) => (r, lx4)
        | (r, lx3) => (r, lx3)
      | (r, lx2) => (r, lx2)
    | (r, lx1) => (r, lx1)
  | some 63 =>
    let r := lx.next_pi_end
    (r.1.map some, r.2)
  | some 47 =>
    let r := lx.next_empty_tag
    (r.1.map some, r.2)
  | some 61 =>
    let sp := lx.next_span
    (.ok (some (.Eq sp)), lx.bump)
  | some 34 =>
    let r := lx.next_quote_str
    (r.1.map some, r.2)
  | some 39 =>
    let r := lx.next_quote_str
    (r.1.map some, r.2)
  | some 62 =>
    let sp := lx.next_span
    (.ok (some (.EndTag sp)), lx.bump)
  | some _ =>
    match lx.next_ws with
    | (.ok (some t), lx1) => (.ok (some t), lx1)
    | (.ok none, lx1) =>
      let r := lx1.next_name
      (r.1.map some, r.2)
    | (r, lx1) => (r, lx1)
  | none => (.ok none, lx)

/-- From `XmLexer::next_token`.  The Rust outer loop runs at most twice:
the `CharData` arm either yields character data or (`next_chardata`
switches the state to `Markup`) falls through to the markup dispatch,
so the loop is unrolled here. -/
def XmLexer.next_token (lx : XmLexer) : LexOut (Option XmlToken) × XmLexer :=
  match lx.state with
  | .Markup => lx.next_token_markup
  | .CharData =>
    match lx.next_chardata with
    | (.ok (some t), lx1) => (.ok (some t), lx1)
    | (.ok none, lx1) => lx1.next_token_markup
    | (r, lx1) => (r, lx1)

/-!
Second layer: the `parserc`-combinator based grammar-rule parsers.

The repository's combinator revisions (`misc.rs`, `attr.rs`,
`element.rs`, `reader.rs`) run over the external `parserc` crate, whose
cursor contract the spec fixes in section 4.1: every primitive either
succeeds and advances, or fails and does not advance; the combinators
`ok`/`or` reset the position on a Recoverable failure and propagate a
Fatal failure immediately (spec section 9).  The primitives below are
modelled from that contract; the grammar-rule parsers themselves are
translated from the repository sources.
-/

/-- Modelled from the spec: the `parserc` crate's `Span` (missing from
src, it is an external dependency): byte offset, length, and the
line/column of the span's start. -/
structure Span where
  offset : Nat
  len : Nat
  line : Nat
  col : Nat
deriving DecidableEq, Repr

/-- Modelled from the spec: `Span::extend_to` extends `s` up to `o`'s
start offset (exclusive end), keeping `s`'s start position. -/
def Span.extend_to (s o : Span) : Span :=
  ⟨s.offset, o.offset - s.offset, s.line, s.col⟩

/-- Modelled from the spec: `Span::extend_to_inclusive` includes `o`'s
full length. -/
def Span.extend_to_inclusive (s o : Span) : Span :=
  ⟨s.offset, o.offset + o.len - s.offset, s.line, s.col⟩

/-- Modelled from the spec: the `parserc` cursor (`ParseContext`):
borrowed input, byte offset, and line/column bookkeeping (column
increments per char, newline resets column to 1 and increments the
line). -/
structure ParseContext where
  input : List Char
  offset : Nat
  line : Nat
  col : Nat
deriving DecidableEq, Repr

/-- Build a cursor over a string (the `From<&str>` impl). -/
def ParseContext.fromStr (s : String) : ParseContext := ⟨s.data, 0, 1, 1⟩

/-- Unread character count. -/
def ParseContext.remaining (ctx : ParseContext) : Nat :=
  ctx.input.length - ctx.offset

/-- Modelled from the spec: `ctx.span()` is the span of the next
character (length 0 at end of input), as exercised by the repository's
unit tests. -/
def ParseContext.span (ctx : ParseContext) : Span :=
  ⟨ctx.offset, if 0 < ctx.remaining then 1 else 0, ctx.line, ctx.col⟩

/-- Advance the cursor over one character, updating line/column. -/
def ParseContext.advChar (ctx : ParseContext) (c : Char) : ParseContext :=
  if c = Char.ofNat 10 then
    { ctx with offset := ctx.offset + 1, line := ctx.line + 1, col := 1 }
  else
    { ctx with offset := ctx.offset + 1, col := ctx.col + 1 }

/-- Advance the cursor over a list of characters. -/
def ParseContext.advList (ctx : ParseContext) : List Char → ParseContext
  | [] => ctx
  | c :: cs => (ctx.advChar c).advList cs

/-- Modelled from the spec: `ctx.peek()` returns the next character and
its span without advancing. -/
def ParseContext.peekC (ctx : ParseContext) : Option Char × Span :=
  if ctx.offset < ctx.input.length then
    (some (ctx.input.getD ctx.offset (Char.ofNat 32)), ctx.span)
  else (none, ctx.span)

/-- Modelled from the spec: `ctx.next()` consumes one character,
returning it together with its span. -/
def ParseContext.nextC (ctx : ParseContext) : (Option Char × Span) × ParseContext :=
  match ctx.peekC with
  | (some c, sp) => ((some c, sp), ctx.advChar c)
  | (none, sp) => ((none, sp), ctx)

/-- From `ctx.as_str(span)`: slice the original input at a span. -/
def ParseContext.as_str (ctx : ParseContext) (sp : Span) : List Char :=
  (ctx.input.drop sp.offset).take sp.len

/-- Modelled from the spec: `parserc::Kind`, the error payload of the
raw primitives (`ReadError::Parserc(Kind)` via `From<Kind>`). -/
inductive Kind where
  | EnsureChar
  | EnsureCharIf
  | EnsureKeyword
deriving DecidableEq, Repr

/-- Two-tier failure taxonomy (`parserc::ControlFlow`): Recoverable
failures feed backtracking, Fatal failures abort the parse. -/
inductive ControlFlow (ε : Type) where
  | Recoverable : ε → ControlFlow ε
  | Fatal : ε → ControlFlow ε
deriving DecidableEq, Repr

/-- Result of a combinator parser: success with the rest of the cursor,
a classified failure, or a Rust panic. -/
inductive PR (ε α : Type) where
  | ok : α → ParseContext → PR ε α
  | err : ControlFlow ε → PR ε α
  | panicked : PR ε α
deriving DecidableEq, Repr

/-- Sequence two parses (the implicit `?` threading of the Rust code). -/
def PR.bind {ε α β : Type} : PR ε α → (α → ParseContext → PR ε β) → PR ε β
  | .ok a ctx, f => f a ctx
  | .err e, _ => .err e
  | .panicked, _ => .panicked

/-- Map the parsed value (`Parser::map`). -/
def pmap {ε α β : Type} (f : α → β) : PR ε α → PR ε β
  | .ok a ctx => .ok (f a) ctx
  | .err (.Recoverable e) => .err (.Recoverable e)
  | .err (.Fatal e) => .err (.Fatal e)
  | .panicked => .panicked

/-- Map the error value, keeping its Recoverable/Fatal class
(`Parser::map_err`). -/
def pmapErr {ε ε' α : Type} (f : ε → ε') : PR ε α → PR ε' α
  | .ok a ctx => .ok a ctx
  | .err (.Recoverable e) => .err (.Recoverable (f e))
  | .err (.Fatal e) => .err (.Fatal (f e))
  | .panicked => .panicked

/-- Modelled from the spec: `ParserExt::ok` turns a Recoverable failure
into `none`, restoring the cursor; Fatal failures propagate. -/
def pok {ε α : Type} (f : ParseContext → PR ε α) (ctx : ParseContext) :
    PR ε (Option α) :=
  match f ctx with
  | .ok a ctx' => .ok (some a) ctx'
  | .err (.Recoverable _) => .ok none ctx
  | .err (.Fatal e) => .err (.Fatal e)
  | .panicked => .panicked

/-- Modelled from the spec: `Parser::or` tries the second alternative
from the original position on a Recoverable failure; Fatal failures
propagate. -/
def por {ε α : Type} (f g : ParseContext → PR ε α) (ctx : ParseContext) :
    PR ε α :=
  match f ctx with
  | .ok a ctx' => .ok a ctx'
  | .err (.Recoverable _) => g ctx
  | .err (.Fatal e) => .err (.Fatal e)
  | .panicked => .panicked

/-- Modelled from the spec: `ParserExt::fatal` escalates a Recoverable
failure into the given Fatal error; an inner Fatal propagates. -/
def pfatal {ε α : Type} (f : ParseContext → PR ε α) (e : ε) (ctx : ParseContext) :
    PR ε α :=
  match f ctx with
  | .ok a ctx' => .ok a ctx'
  | .err (.Recoverable _) => .err (.Fatal e)
  | .err (.Fatal e0) => .err (.Fatal e0)
  | .panicked => .panicked

/-- Modelled from the spec: `ensure_char` matches one exact character,
advancing on success and failing Recoverable without advancing
otherwise. -/
def ensure_char (c : Char) (ctx : ParseContext) : PR Kind Span :=
  if ctx.offset < ctx.input.length ∧ ctx.input.getD ctx.offset (Char.ofNat 32) = c then
    .ok ctx.span (ctx.advChar c)
  else .err (.Recoverable .EnsureChar)

/-- Modelled from the spec: `ensure_char_if` matches one character
satisfying the predicate. -/
def ensure_char_if (p : Char → Bool) (ctx : ParseContext) : PR Kind Span :=
  if ctx.offset < ctx.input.length then
    let c := ctx.input.getD ctx.offset (Char.ofNat 32)
    if p c then .ok ctx.span (ctx.advChar c) else .err (.Recoverable .EnsureCharIf)
  else .err (.Recoverable .EnsureCharIf)

/-- Modelled from the spec: `ensure_keyword` matches an exact literal
with no partial consumption on failure. -/
def ensure_keyword (kw : List Char) (ctx : ParseContext) : PR Kind Span :=
  if (ctx.input.drop ctx.offset).take kw.length = kw then
    .ok ⟨ctx.offset, kw.length, ctx.line, ctx.col⟩ (ctx.advList kw)
  else .err (.Recoverable .EnsureKeyword)

/-- Loop body of `take_while`: consume the maximal satisfying run. -/
def takeWhileLoop (p : Char → Bool) : Nat → ParseContext → ParseContext
  | 0, ctx => ctx
  | n + 1, ctx =>
    if ctx.offset < ctx.input.length then
      let c := ctx.input.getD ctx.offset (Char.ofNat 32)
      if p c then takeWhileLoop p n (ctx.advChar c) else ctx
    else ctx

/-- Modelled from the spec: `take_while` consumes the maximal run of
satisfying characters, returning `none` when zero matched. -/
def take_while (p : Char → Bool) (ctx : ParseContext) : Option Span × ParseContext :=
  let ctx1 := takeWhileLoop p ctx.remaining ctx
  let n := ctx1.offset - ctx.offset
  if 0 < n then (some ⟨ctx.offset, n, ctx.line, ctx.col⟩, ctx1) else (none, ctx)

/-- Modelled from the spec: `take_till` consumes until the predicate
holds or end of input. -/
def take_till (p : Char → Bool) (ctx : ParseContext) : Option Span × ParseContext :=
  take_while (fun c => ¬ p c) ctx

/-- Lift a raw-primitive result into a grammar error type through the
`From<parserc::Kind>` conversion done by `?` in the Rust code. -/
def liftK {ε α : Type} (inj : Kind → ε) : PR Kind α → PR ε α :=
  pmapErr inj

/-- Rust `char::is_whitespace` (the Unicode White_Space set). -/
def rustIsWhitespace (c : Char) : Bool :=
  c.toNat = 0x20 ∨ (0x09 ≤ c.toNat ∧ c.toNat ≤ 0x0d) ∨ c.toNat = 0x85 ∨
  c.toNat = 0xa0 ∨ c.toNat = 0x1680 ∨ (0x2000 ≤ c.toNat ∧ c.toNat ≤ 0x200a) ∨
  c.toNat = 0x2028 ∨ c.toNat = 0x2029 ∨ c.toNat = 0x202f ∨ c.toNat = 0x205f ∨
  c.toNat = 0x3000

/-- Rust `char::is_alphabetic`, restricted to the ASCII range (every
input considered in this development is ASCII, where the two agree). -/
def rustIsAlphabetic (c : Char) : Bool :=
  (65 ≤ c.toNat ∧ c.toNat ≤ 90) ∨ (97 ≤ c.toNat ∧ c.toNat ≤ 122)

/-- Rust `char::is_alphanumeric`, restricted to the ASCII range. -/
def rustIsAlphanumeric (c : Char) : Bool :=
  rustIsAlphabetic c ∨ (48 ≤ c.toNat ∧ c.toNat ≤ 57)

/-- Single-quote character, written by code point to keep literals
simple. -/
def squoteChar : Char := Char.ofNat 39

/-- Double-quote character. -/
def dquoteChar : Char := Char.ofNat 34

/-- The single-quote as a one-character string. -/
def squoteStr : String := String.mk [squoteChar]

/-- The double-quote as a one-character string. -/
def dquoteStr : String := String.mk [dquoteChar]

/-- Error-detail kinds of the grammar parsers, from
`src/reader/errors.rs` (`ReadKind`).  The source constructors
backing each name: `pre` is the expected-opening-token kind, `suf` the
expected-closing-token kind, `nameK` the tag-name kind, `eqK` the `Eq`
kind, `quoteK` the quote kind, `noneK` the `None` kind; the remaining
constructors keep their source names. -/
inductive ReadKind where
  | pre : String → ReadKind
  | suf : String → ReadKind
  | nameK : ReadKind
  | eqK : ReadKind
  | quoteK : ReadKind
  | noneK : ReadKind
  | PITarget : ReadKind
  | PIBody : ReadKind
  | Reserved : ReadKind
  | LocalName : ReadKind
deriving DecidableEq, Repr

/-- The `Name` of the element-parser revision, from
`src/reader/events.rs`: optional namespace segment (the source's
`prefix` field, here `pfx`) and local part. -/
structure NameS where
  pfx : Option Span
  local_name : Span
deriving DecidableEq, Repr

/-- The single-span `Name` of the misc.rs revision. -/
structure NameM where
  span : Span
deriving DecidableEq, Repr

/-- Errors of the combinator grammar parsers.  The constructors collect
the `ReadError` variants used by the embedded revisions: `Parserc` from
`errors.rs`, `WS` (payload-free, as used in `misc.rs`), the
construct-kind/span pairs, and the element-validator errors `Mismatch`,
`HangEndTag` and `Unclosed` used by `element.rs`. -/
inductive ReadError where
  | Parserc : Kind → ReadError
  | WS : ReadError
  | Comment : ReadKind → Span → ReadError
  | CData : ReadKind → Span → ReadError
  | CharData : ReadKind → Span → ReadError
  | PI : ReadKind → Span → ReadError
  | Quote : ReadKind → Span → ReadError
  | Name : ReadKind → Span → ReadError
  | Attr : ReadKind → Span → ReadError
  | Element : ReadKind → Span → ReadError
  | Mismatch : NameS → NameS → ReadError
  | HangEndTag : NameS → ReadError
  | Unclosed : List NameS → Span → ReadError
  | DocType : ReadKind → Span → ReadError
  | ExternalId : ReadKind → Span → ReadError
deriving DecidableEq, Repr

/-- Lift a raw-primitive result into `ReadError` (the `From<Kind>`
conversion). -/
def liftR {α : Type} : PR Kind α → PR ReadError α :=
  liftK ReadError.Parserc

/-- From `misc.rs` `impl FromSrc for WS`: a whitespace run, Recoverable
`ReadError::WS` when none is pending. -/
def wsParse (ctx : ParseContext) : PR ReadError Span :=
  match take_while rustIsWhitespace ctx with
  | (some sp, ctx') => .ok sp ctx'
  | (none, _) => .err (.Recoverable .WS)

/-- From `misc.rs` `parse_eq`: optional whitespace, `=`, optional
whitespace. -/
def parse_eq_m (ctx : ParseContext) : PR ReadError Span :=
  (pok wsParse ctx).bind fun _ ctx1 =>
  (liftR (ensure_char (Char.ofNat 61) ctx1)).bind fun sp ctx2 =>
  (pok wsParse ctx2).bind fun _ ctx3 =>
  .ok sp ctx3

/-- Loop body of `misc.rs` `quote`: scan to the matching closing quote,
applying the caller-supplied per-character validator; end of input is a
Fatal expect-closing-quote error. -/
def quoteLoopM (f : Char → Except ReadError Unit) (dq : Bool) (q : Char)
    (start : Span) : Nat → ParseContext → PR ReadError Span
  | 0, ctx => .err (.Fatal (.Quote (.suf (if dq then dquoteStr else squoteStr)) ctx.span))
  | n + 1, ctx =>
    match ctx.nextC with
    | ((none, sp), _) =>
      .err (.Fatal (.Quote (.suf (if dq then dquoteStr else squoteStr)) sp))
    | ((some c, sp), ctx1) =>
      if c = q then .ok (start.extend_to sp) ctx1
      else
        match f c with
        | .ok _ => quoteLoopM f dq q start n ctx1
        | .error e => .err (.Fatal e)

/-- From `misc.rs` `quote`: opening quote (single or double), validated
content, matching closing quote; returns the span strictly between the
quotes. -/
def quoteP (f : Char → Except ReadError Unit) (ctx : ParseContext) :
    PR ReadError Span :=
  (por (fun c => pmap (fun _ => false) (liftR (ensure_char squoteChar c)))
       (fun c => pmap (fun _ => true) (liftR (ensure_char dquoteChar c))) ctx).bind
  fun dq ctx1 =>
  let q := if dq then dquoteChar else squoteChar
  let start := ctx1.span
  quoteLoopM f dq q start ctx1.remaining ctx1

/-- The all-accepting validator, `|_| Ok(())`. -/
def okValidator : Char → Except ReadError Unit := fun _ => .ok ()

/-- The dash character. -/
def dashChar : Char := Char.ofNat 45

/-- The question-mark character. -/
def qmarkChar : Char := Char.ofNat 63

/-- The greater-than character. -/
def gtChar : Char := Char.ofNat 62

/-- Loop body of `misc.rs` `Comment::parse`: consume a non-dash run and
then a dash run; a dash run of length above one immediately followed by
`>` ends the comment, trimming the trailing two dashes; end of input is
a Fatal expect-terminator error. -/
def commentLoopM (content : Span) : Nat → ParseContext → PR ReadError Span
  | 0, ctx => .err (.Fatal (.Comment (.suf "-->") ctx.span))
  | n + 1, ctx =>
    let (tt, ctx1) := take_till (fun c => c = dashChar) ctx
    let content1 := match tt with
      | some chars => content.extend_to_inclusive chars
      | none => content
    match take_while (fun c => c = dashChar) ctx1 with
    | (none, ctx2) => .err (.Fatal (.Comment (.suf "-->") ctx2.span))
    | (some dashes, ctx2) =>
      let content2 := content1.extend_to_inclusive dashes
      if 1 < dashes.len then
        match ctx2.peekC with
        | (some g, _) =>
          if g = gtChar then
            .ok { content2 with len := content2.len - 2 } (ctx2.advChar g)
          else commentLoopM content2 n ctx2
        | (none, _) => commentLoopM content2 n ctx2
      else commentLoopM content2 n ctx2

/-- From `misc.rs` `impl FromSrc for Comment`: the `<!--` keyword, then
the comment scan loop. -/
def Comment.parse (ctx : ParseContext) : PR ReadError Span :=
  let start := ctx.span
  (pmapErr (fun _ => ReadError.Comment (.pre "<!--") start)
      (liftR (ensure_keyword "<!--".data ctx))).bind fun _ ctx1 =>
  let content := { ctx1.span with len := 0 }
  commentLoopM content ctx1.remaining ctx1

/-- The left-angle character. -/
def ltChar : Char := Char.ofNat 60

/-- From `doctype.rs` `parse_doc_type_decl`: the scanning loop after the
`<!DOCTYPE` keyword. `sp0` is the span captured at function entry (used
by the end-of-input error), `start` the span of the keyword, `cnt` the
nesting counter. The fuel stands in for the `loop`; it is instantiated
with the remaining input length and the zero-fuel value coincides with
the end-of-input outcome. -/
def docTypeDeclLoop (sp0 start : Span) :
    Nat → Nat → ParseContext → PR ReadError Span
  | _, 0, _ => .err (.Fatal (.DocType (.suf ">") sp0))
  | cnt, n + 1, ctx =>
    let (_, ctx1) := take_till (fun ch =>
      ch = ltChar ∨ ch = gtChar ∨ ch = dquoteChar ∨ ch = squoteChar) ctx
    match ctx1.peekC with
    | (some nxt, sp) =>
      if nxt = ltChar then
        docTypeDeclLoop sp0 start (cnt + 1) n (ctx1.advChar nxt)
      else if nxt = gtChar then
        if cnt - 1 = 0 then .ok (start.extend_to_inclusive sp) (ctx1.advChar nxt)
        else docTypeDeclLoop sp0 start (cnt - 1) n (ctx1.advChar nxt)
      else
        (pfatal (quoteP okValidator) (.DocType .quoteK sp) ctx1).bind
          fun _ ctx2 => docTypeDeclLoop sp0 start cnt n ctx2
    | (none, _) => .err (.Fatal (.DocType (.suf ">") sp0))

/-- From `doctype.rs` `parse_doc_type_decl`: the `<!DOCTYPE` keyword
(its failure mapped to `DocType(Prefix("<!DOCTYPE"))`), then the
counting scan with the nesting counter starting at 1; the returned span
is `start.extend_to_inclusive` of the closing `>` span, so it includes
both the keyword and the final `>`. -/
def parse_doc_type_decl (ctx : ParseContext) : PR ReadError Span :=
  let sp0 := ctx.span
  (pmapErr (fun _ => ReadError.DocType (.pre "<!DOCTYPE") sp0)
      (liftR (ensure_keyword "<!DOCTYPE".data ctx))).bind
  fun start ctx1 => docTypeDeclLoop sp0 start 1 ctx1.remaining ctx1

/-- The right-bracket character. -/
def rbracketChar : Char := Char.ofNat 93

/-- Loop body of `misc.rs` `CData::parse`, mirroring the comment loop
with `]` markers and the `]]>` terminator. -/
def cdataLoopM (content : Span) : Nat → ParseContext → PR ReadError Span
  | 0, ctx => .err (.Fatal (.CData (.suf "]]>") ctx.span))
  | n + 1, ctx =>
    let (tt, ctx1) := take_till (fun c => c = rbracketChar) ctx
    let content1 := match tt with
      | some chars => content.extend_to_inclusive chars
      | none => content
    match take_while (fun c => c = rbracketChar) ctx1 with
    | (none, ctx2) => .err (.Fatal (.CData (.suf "]]>") ctx2.span))
    | (some brackets, ctx2) =>
      let content2 := content1.extend_to_inclusive brackets
      if 1 < brackets.len then
        match ctx2.peekC with
        | (some g, _) =>
          if g = gtChar then
            .ok { content2 with len := content2.len - 2 } (ctx2.advChar g)
          else cdataLoopM content2 n ctx2
        | (none, _) => cdataLoopM content2 n ctx2
      else cdataLoopM content2 n ctx2

/-- From `misc.rs` `impl FromSrc for CData`. -/
def CData.parse (ctx : ParseContext) : PR ReadError Span :=
  let start := ctx.span
  (pmapErr (fun _ => ReadError.CData (.pre "<![CDATA[") start)
      (liftR (ensure_keyword "<![CDATA[".data ctx))).bind fun _ ctx1 =>
  let content := { ctx1.span with len := 0 }
  cdataLoopM content ctx1.remaining ctx1

/-- From `misc.rs` `impl FromSrc for CharData`: everything up to the
next `<`, Recoverable when empty. -/
def CharData.parse (ctx : ParseContext) : PR ReadError Span :=
  match take_till (fun c => c = Char.ofNat 60) ctx with
  | (some sp, ctx') => .ok sp ctx'
  | (none, ctx') => .err (.Recoverable (.CharData .noneK ctx'.span))

/-- From `misc.rs` `impl FromSrc for Name`: one starting character
(underscore, colon or alphabetic), then a maximal run of name
characters. -/
def NameM.parse (ctx : ParseContext) : PR ReadError NameM :=
  (liftR (ensure_char_if
      (fun c => c = Char.ofNat 95 ∨ c = Char.ofNat 58 ∨ rustIsAlphabetic c) ctx)).bind
  fun start ctx1 =>
  match take_while
      (fun c => c = Char.ofNat 95 ∨ c = Char.ofNat 58 ∨ c = dashChar ∨
        c = Char.ofNat 46 ∨ rustIsAlphanumeric c) ctx1 with
  | (some suf, ctx2) => .ok ⟨start.extend_to_inclusive suf⟩ ctx2
  | (none, ctx2) => .ok ⟨start⟩ ctx2

/-- ASCII lowercasing of one character (Rust `str::to_lowercase` on the
ASCII inputs exercised here). -/
def asciiLower (c : Char) : Char :=
  if 65 ≤ c.toNat ∧ c.toNat ≤ 90 then Char.ofNat (c.toNat + 32) else c

/-- The `PI` of the misc.rs revision: target name and optional raw
body. -/
structure PIM where
  target : NameM
  unparsed : Option Span
deriving DecidableEq, Repr

/-- Shared tail of `misc.rs` `PI::parse` reached when the body scan
stops: a zero-length body after whitespace is a Fatal `PIBody` error,
otherwise the `?>` keyword is required and the PI carries no body. -/
def piAfter (target : NameM) (start : Span) (content : Span)
    (hadWs : Bool) (ctx : ParseContext) : PR ReadError PIM :=
  if hadWs ∧ content.len = 0 then
    .err (.Fatal (.PI .PIBody content))
  else
    (pmapErr (fun _ => ReadError.PI (.suf "?>") start)
        (liftR (ensure_keyword "?>".data ctx))).bind fun _ ctx1 =>
    .ok ⟨target, none⟩ ctx1

/-- Loop body of `misc.rs` `PI::parse`: consume a non-`?` run (the Rust
code drops the extension of the captured span here), then `expect` a
`?` run — a panic when the run is empty, which happens exactly when the
non-`?` run ended at end of input — and terminate on a following `>`,
trimming the final `?`. -/
def piLoop (target : NameM) (start : Span) (content : Span) :
    Nat → ParseContext → PR ReadError PIM
  | 0, ctx => piAfter target start content true ctx
  | n + 1, ctx =>
    match take_till (fun c => c = qmarkChar) ctx with
    | (none, ctx1) => piAfter target start content true ctx1
    | (some _, ctx1) =>
      match take_while (fun c => c = qmarkChar) ctx1 with
      | (none, _) => .panicked
      | (some qmarks, ctx2) =>
        let content1 := content.extend_to_inclusive qmarks
        match ctx2.peekC with
        | (some g, _) =>
          if g = gtChar then
            .ok ⟨target, some { content1 with len := content1.len - 1 }⟩ (ctx2.advChar g)
          else piLoop target start content1 n ctx2
        | (none, _) => piLoop target start content1 n ctx2

/-- From `misc.rs` `impl FromSrc for PI`: the `<?` keyword, a target
name, the reserved-word check against `xml` (case-insensitive), then
either a whitespace-separated body scanned by `piLoop` or an immediate
`?>`. -/
def PI.parse (ctx : ParseContext) : PR ReadError PIM :=
  let start := ctx.span
  (pmapErr (fun _ => ReadError.PI (.pre "<?") start)
      (liftR (ensure_keyword "<?".data ctx))).bind fun _ ctx1 =>
  let sp := ctx1.span
  (pmapErr (fun _ => ReadError.PI .PITarget sp) (NameM.parse ctx1)).bind
  fun target ctx2 =>
  if (ctx2.as_str target.span).map asciiLower = "xml".data then
    .err (.Fatal (.PI .Reserved target.span))
  else
    (pok wsParse ctx2).bind fun ws ctx3 =>
    match ws with
    | some _ =>
      let content := { ctx3.span with len := 0 }
      piLoop target start content ctx3.remaining ctx3
    | none => piAfter target start { ctx3.span with len := 0 } false ctx3

/-- Modelled from the spec: the two-segment Name grammar of section
4.2.  The element-revision parser producing the `prefix`/`local_name`
`Name` of `reader/events.rs` is missing from src (only its callers in
`reader/element.rs` are present): a NameStartChar is a letter or
underscore; a NameChar also allows digits, `-` and `.`. -/
def nameStartSpec (c : Char) : Bool :=
  rustIsAlphabetic c ∨ c = Char.ofNat 95

/-- Modelled from the spec: NameChar of section 4.2. -/
def nameCharSpec (c : Char) : Bool :=
  rustIsAlphabetic c ∨ (48 ≤ c.toNat ∧ c.toNat ≤ 57) ∨ c = Char.ofNat 95 ∨
  c = dashChar ∨ c = Char.ofNat 46

/-- Modelled from the spec: section 4.2's Name parser.  One
NameStartChar, a maximal NameChar run; when a colon follows, it is
consumed and a further segment starting with a NameStartChar is
required as the local name (Fatal expect-local_name otherwise); without
a colon the first run is the local name and there is no namespace
segment. -/
def NameS.parse (ctx : ParseContext) : PR ReadError NameS :=
  (liftR (ensure_char_if nameStartSpec ctx)).bind fun sc ctx1 =>
  let firstAndCtx : Span × ParseContext :=
    match take_while nameCharSpec ctx1 with
    | (some run, ctx2) => (sc.extend_to_inclusive run, ctx2)
    | (none, ctx2) => (sc, ctx2)
  let first := firstAndCtx.1
  let ctx2 := firstAndCtx.2
  match ensure_char (Char.ofNat 58) ctx2 with
  | .ok _ ctx3 =>
    (pfatal (liftR ∘ ensure_char_if nameStartSpec)
        (ReadError.Name .LocalName ctx3.span) ctx3).bind fun sc2 ctx4 =>
    match take_while nameCharSpec ctx4 with
    | (some run2, ctx5) => .ok ⟨some first, sc2.extend_to_inclusive run2⟩ ctx5
    | (none, ctx5) => .ok ⟨some first, sc2⟩ ctx5
  | _ => .ok ⟨none, first⟩ ctx2

/-- An attribute of the element revision: name and quoted value span. -/
structure AttrS where
  name : NameS
  value : Span
deriving DecidableEq, Repr

/-- From `attr.rs` `parse_attr`: optional whitespace, a name, `Eq`
(Fatal on failure), a quoted value (Fatal on failure). -/
def Attr.parse (ctx : ParseContext) : PR ReadError AttrS :=
  (pok wsParse ctx).bind fun _ ctx1 =>
  (NameS.parse ctx1).bind fun name ctx2 =>
  (pfatal parse_eq_m (.Attr .eqK ctx2.span) ctx2).bind fun _ ctx3 =>
  (pfatal (quoteP okValidator) (.Attr .quoteK ctx3.span) ctx3).bind fun value ctx4 =>
  .ok ⟨name, value⟩ ctx4

/-- Read events produced by the element revision, from
`reader/events.rs` (`ReadEvent`); the variants not produced by the
embedded parsers are omitted. -/
inductive ReadEvent where
  | PI : PIM → ReadEvent
  | WS : Span → ReadEvent
  | CharData : Span → ReadEvent
  | CData : Span → ReadEvent
  | Comment : Span → ReadEvent
  | ElementStart : NameS → List AttrS → ReadEvent
  | EmptyElement : NameS → List AttrS → ReadEvent
  | ElementEnd : NameS → ReadEvent
deriving DecidableEq, Repr

/-- Attribute loop of `parse_element_empty_or_start`: zero or more
attributes, each followed by optional whitespace. -/
def attrLoop : Nat → List AttrS → ParseContext → PR ReadError (List AttrS)
  | 0, attrs, ctx => .ok attrs ctx
  | n + 1, attrs, ctx =>
    (pok Attr.parse ctx).bind fun a ctx1 =>
    match a with
    | some attr =>
      (pok wsParse ctx1).bind fun _ ctx2 =>
      attrLoop n (attrs ++ [attr]) ctx2
    | none => .ok attrs ctx1

/-- From `element.rs` `parse_element_empty_or_start`: `<`, name,
attribute loop, optional whitespace, then `>` (ElementStart) or `/>`
(EmptyElement); any other terminator is Fatal. -/
def parse_element_empty_or_start (ctx : ParseContext) : PR ReadError ReadEvent :=
  let sp := ctx.span
  (pmapErr (fun _ => ReadError.Element (.pre "<") sp)
      (liftR (ensure_char (Char.ofNat 60) ctx))).bind fun _ ctx1 =>
  (NameS.parse ctx1).bind fun name ctx2 =>
  (pok wsParse ctx2).bind fun _ ctx3 =>
  (attrLoop ctx3.remaining [] ctx3).bind fun attrs ctx4 =>
  (pok wsParse ctx4).bind fun _ ctx5 =>
  (pok (fun c => liftR (ensure_keyword ">".data c)) ctx5).bind fun gt ctx6 =>
  match gt with
  | some _ => .ok (.ElementStart name attrs) ctx6
  | none =>
    (pok (fun c => liftR (ensure_keyword "/>".data c)) ctx6).bind fun et ctx7 =>
    match et with
    | some _ => .ok (.EmptyElement name attrs) ctx7
    | none => .err (.Fatal (.Element (.suf "`>` or `/>`") ctx7.span))

/-- From `element.rs` `parse_element_end`: `</`, name (Fatal on
failure), optional whitespace, `>`. -/
def parse_element_end (ctx : ParseContext) : PR ReadError ReadEvent :=
  let sp := ctx.span
  (pmapErr (fun _ => ReadError.Element (.pre "</") sp)
      (liftR (ensure_keyword "</".data ctx))).bind fun _ ctx1 =>
  (pfatal NameS.parse (.Element .nameK sp) ctx1).bind fun name ctx2 =>
  (pok wsParse ctx2).bind fun _ ctx3 =>
  (pmapErr (fun _ => ReadError.Element (.suf ">") sp)
      (liftR (ensure_char gtChar ctx3))).bind fun _ ctx4 =>
  .ok (.ElementEnd name) ctx4

/-- From `element.rs` `parse_content`: ordered alternation over start
tag, end tag, character data, CDATA, PI and comment. -/
def parse_content (ctx : ParseContext) : PR ReadError ReadEvent :=
  por parse_element_empty_or_start
    (por parse_element_end
      (por (fun c => pmap ReadEvent.CharData (CharData.parse c))
        (por (fun c => pmap ReadEvent.CData (CData.parse c))
          (por (fun c => pmap ReadEvent.PI (PI.parse c))
            (fun c => pmap ReadEvent.Comment (Comment.parse c)))))) ctx

/-- The stack bookkeeping of `parse_element`'s ElementEnd arm: pop the
open-element stack (represented head-first; the Rust `Vec` pushes and
pops at its end) and compare local names, then namespace segments —
the namespace segment of the end tag is only inspected when the start
tag has one. -/
def processEvent (ctx : ParseContext) (stack : List NameS) (event : ReadEvent) :
    Except ReadError (List NameS) :=
  match event with
  | .ElementStart name _ => .ok (name :: stack)
  | .ElementEnd name =>
    match stack with
    | startTag :: rest =>
      if ctx.as_str startTag.local_name ≠ ctx.as_str name.local_name then
        .error (.Mismatch startTag name)
      else
        match startTag.pfx with
        | some sp =>
          match name.pfx with
          | some np =>
            if ctx.as_str np ≠ ctx.as_str sp then .error (.Mismatch startTag name)
            else .ok rest
          | none => .error (.Mismatch startTag name)
        | none => .ok rest
    | [] => .error (.HangEndTag name)
  | _ => .ok stack

/-- Main loop of `element.rs` `parse_element`: process the pending
event against the stack, emit it, stop when the stack empties, and
otherwise pull the next content event (Fatal `Unclosed` when none can
be parsed).  The zero-fuel sentinel is unreachable for the fuel chosen
by `parse_element` because every content event consumes input. -/
def parse_element_loop :
    Nat → List ReadEvent → List NameS → ReadEvent → ParseContext →
    PR ReadError (List ReadEvent)
  | 0, _, stack, _, ctx => .err (.Fatal (.Unclosed stack ctx.span))
  | n + 1, events, stack, event, ctx =>
    match processEvent ctx stack event with
    | .error e => .err (.Fatal e)
    | .ok stack1 =>
      let events1 := events ++ [event]
      if stack1.isEmpty then .ok events1 ctx
      else
        (pok parse_content ctx).bind fun e ctx1 =>
        match e with
        | some ev => parse_element_loop n events1 stack1 ev ctx1
        | none => .err (.Fatal (.Unclosed stack1 ctx1.span))

/-- From `element.rs` `parse_element`: parse the opening event, then
run the validation loop until the open-element stack empties. -/
def parse_element (ctx : ParseContext) : PR ReadError (List ReadEvent) :=
  (parse_element_empty_or_start ctx).bind fun ev ctx1 =>
  parse_element_loop (ctx1.remaining + 1) [] [] ev ctx1

/-- Error-detail kinds of the xml-declaration reader, from
`src/reader.rs` (`ReadKind` of that revision). -/
inductive ReadKindX where
  | QuoteX : ReadKindX
  | VerStr : ReadKindX
  | LitVer : ReadKindX
  | SDBool : ReadKindX
  | EncName : ReadKindX
deriving DecidableEq, Repr

/-- Errors of the xml-declaration reader, from `src/reader.rs`
(`ReadError` of that revision). -/
inductive ReadErrorX where
  | Parserc : Kind → ReadErrorX
  | Version : ReadKindX → Span → ReadErrorX
  | Standalone : ReadKindX → Span → ReadErrorX
  | Encoding : ReadKindX → Span → ReadErrorX
  | Ws : Span → ReadErrorX
  | Eq : Span → ReadErrorX
deriving DecidableEq, Repr

/-- Xml version, 1.0 or 1.1, from `src/events.rs` (`XmlVersion`). -/
inductive XmlVersion where
  | Ver10 : XmlVersion
  | Ver11 : XmlVersion
deriving DecidableEq, Repr

/-- The `XmlDecl` event from `src/events.rs` (`Event::XmlDecl`):
version, optional encoding name (the `Cow<str>` sliced out of the
input), optional standalone flag, and the declaration's span.  The
other `Event` variants are not produced by the embedded functions. -/
inductive Event where
  | XmlDecl : XmlVersion → Option (List Char) → Option Bool → Option Span → Event
deriving DecidableEq, Repr

/-- Lift a raw-primitive result into `ReadErrorX`. -/
def liftX {α : Type} : PR Kind α → PR ReadErrorX α :=
  liftK ReadErrorX.Parserc

/-- From `reader.rs` `skip_ws`: required whitespace, Recoverable `Ws`
error when none. -/
def skip_ws (ctx : ParseContext) : PR ReadErrorX Span :=
  match take_while rustIsWhitespace ctx with
  | (some sp, ctx') => .ok sp ctx'
  | (none, ctx') => .err (.Recoverable (.Ws ctx'.span))

/-- From `reader.rs` `parse_eq`: optional whitespace, `=` (Fatal `Eq`
on failure), optional whitespace. -/
def parse_eq_x (ctx : ParseContext) : PR ReadErrorX Span :=
  (pok skip_ws ctx).bind fun _ ctx1 =>
  (pfatal (fun c => liftX (ensure_char (Char.ofNat 61) c)) (.Eq ctx1.span) ctx1).bind
  fun sp ctx2 =>
  (pok skip_ws ctx2).bind fun _ ctx3 =>
  .ok sp ctx3

/-- From `reader.rs` `parse_version_info`: whitespace, the `version`
keyword, `Eq`, then a quoted `1.1` or `1.0` literal, each failure
escalated to a Fatal `Version` error. -/
def parse_version_info (ctx : ParseContext) : PR ReadErrorX XmlVersion :=
  (skip_ws ctx).bind fun _ ctx1 =>
  (pfatal (fun c => liftX (ensure_keyword "version".data c))
      (.Version .LitVer ctx1.span) ctx1).bind fun _ ctx2 =>
  (parse_eq_x ctx2).bind fun _ ctx3 =>
  (pfatal
      (por (fun c => pmap (fun _ => false) (liftX (ensure_char squoteChar c)))
           (fun c => pmap (fun _ => true) (liftX (ensure_char dquoteChar c))))
      (.Version .QuoteX ctx3.span) ctx3).bind fun dq ctx4 =>
  (pfatal
      (por (fun c => pmap (fun _ => XmlVersion.Ver11) (liftX (ensure_keyword "1.1".data c)))
           (fun c => pmap (fun _ => XmlVersion.Ver10) (liftX (ensure_keyword "1.0".data c))))
      (.Version .VerStr ctx4.span) ctx4).bind fun version ctx5 =>
  (pfatal (fun c => liftX (ensure_char (if dq then dquoteChar else squoteChar) c))
      (.Version .QuoteX ctx5.span) ctx5).bind fun _ ctx6 =>
  .ok version ctx6

/-- From `reader.rs` `parse_encoding_decl`: whitespace, the `encoding`
keyword (Recoverable when absent), `Eq`, then the quoted encoding
name. -/
def parse_encoding_decl (ctx : ParseContext) : PR ReadErrorX Span :=
  (skip_ws ctx).bind fun _ ctx1 =>
  (liftX (ensure_keyword "encoding".data ctx1)).bind fun _ ctx2 =>
  (parse_eq_x ctx2).bind fun _ ctx3 =>
  (pfatal
      (por (fun c => pmap (fun _ => false) (liftX (ensure_char squoteChar c)))
           (fun c => pmap (fun _ => true) (liftX (ensure_char dquoteChar c))))
      (.Encoding .QuoteX ctx3.span) ctx3).bind fun dq ctx4 =>
  let q := if dq then dquoteChar else squoteChar
  match take_while (fun c => ¬ c = q) ctx4 with
  | (none, ctx5) => .err (.Fatal (.Encoding .EncName ctx5.span))
  | (some sp, ctx5) =>
    (pfatal (fun c => liftX (ensure_char q c)) (.Encoding .QuoteX ctx5.span) ctx5).bind
    fun _ ctx6 =>
    .ok sp ctx6

/-- From `reader.rs` `parse_standalone_decl`: whitespace, the
`standalone` keyword (Recoverable when absent), `Eq`, then a quoted
`yes` or `no`. -/
def parse_standalone_decl (ctx : ParseContext) : PR ReadErrorX Bool :=
  (skip_ws ctx).bind fun _ ctx1 =>
  (liftX (ensure_keyword "standalone".data ctx1)).bind fun _ ctx2 =>
  (parse_eq_x ctx2).bind fun _ ctx3 =>
  (pfatal
      (por (fun c => pmap (fun _ => false) (liftX (ensure_char squoteChar c)))
           (fun c => pmap (fun _ => true) (liftX (ensure_char dquoteChar c))))
      (.Standalone .QuoteX ctx3.span) ctx3).bind fun dq ctx4 =>
  (pfatal
      (por (fun c => pmap (fun _ => true) (liftX (ensure_keyword "yes".data c)))
           (fun c => pmap (fun _ => false) (liftX (ensure_keyword "no".data c))))
      (.Standalone .SDBool ctx4.span) ctx4).bind fun flag ctx5 =>
  (pfatal (fun c => liftX (ensure_char (if dq then dquoteChar else squoteChar) c))
      (.Standalone .QuoteX ctx5.span) ctx5).bind fun _ ctx6 =>
  .ok flag ctx6

/-- From `reader.rs` `parse_xml_decl`: the `<?xml` keyword, the
mandatory version info, optional encoding then optional standalone
declarations, optional whitespace and the `?>` keyword. -/
def parse_xml_decl (ctx : ParseContext) : PR ReadErrorX Event :=
  (liftX (ensure_keyword "<?xml".data ctx)).bind fun start ctx1 =>
  (parse_version_info ctx1).bind fun version ctx2 =>
  (pok parse_encoding_decl ctx2).bind fun enc ctx3 =>
  (pok parse_standalone_decl ctx3).bind fun sa ctx4 =>
  (pok skip_ws ctx4).bind fun _ ctx5 =>
  (liftX (ensure_keyword "?>".data ctx5)).bind fun endSp ctx6 =>
  .ok (.XmlDecl version (enc.map (fun sp => ctx6.as_str sp)) sa
        (some (start.extend_to_inclusive endSp))) ctx6

/-- Build a cursor directly over a character list (used for inputs
containing single-quote characters). -/
def ParseContext.fromChars (cs : List Char) : ParseContext := ⟨cs, 0, 1, 1⟩

/-- The declaration `<?xml version="1.0" encoding="utf-16"
standalone='no'?>` of the spec's boundary test, with the single quotes
spelled by code point. -/
def xmlDeclFullInput : List Char :=
  "<?xml version=\"1.0\" encoding=\"utf-16\" standalone=".data ++
    [squoteChar] ++ "no".data ++ [squoteChar] ++ "?>".data

/-- The same declaration with standalone before encoding (the order the
grammar forbids). -/
def xmlDeclSwappedInput : List Char :=
  "<?xml version=\"1.0\" standalone=".data ++ [squoteChar] ++ "no".data ++
    [squoteChar] ++ " encoding=\"utf-16\"?>".data

/-!
Theorems.  The claim theorems are stated over the embedded definitions
above; the sanity theorems replay the repository's own unit tests
against the embedding.
-/

/-- Sanity: `lexer.rs` `test_next_name` first case. -/
theorem sanity_lexer_next_name :
    (XmLexer.fromStr "hell=").next_name =
      (.ok (.Name ⟨0, 4⟩), { XmLexer.fromStr "hell=" with offset := 4 }) := by
  decide

/-- Sanity: `lexer.rs` `test_next_comment` trailing-dash case, content
span covers the extra dashes minus the terminator. -/
theorem sanity_lexer_next_comment :
    ((XmLexer.fromStr "<!--\ndfdfd<<<---->").next_comment).1 =
      .ok (some (.Comment ⟨4, 11⟩)) := by
  decide

/-- Sanity: `misc.rs` `test_comment` dash-run case. -/
theorem sanity_misc_comment :
    Comment.parse (ParseContext.fromStr "<!------->") =
      .ok ⟨4, 3, 1, 5⟩ ⟨"<!------->".data, 10, 1, 11⟩ := by
  decide

/-- Sanity: `misc.rs` `test_pi` body case. -/
theorem sanity_misc_pi :
    PI.parse (ParseContext.fromStr "<?hello world? > ?>") =
      .ok ⟨⟨⟨2, 5, 1, 3⟩⟩, some ⟨8, 9, 1, 9⟩⟩ ⟨"<?hello world? > ?>".data, 19, 1, 20⟩ := by
  decide

/-- C1 counterexample: the claim predicts that parsing `<a></a></a>`
with `parse_element` yields the Fatal `HangEndTag` no-matching-start-tag
error; instead `parse_element` returns successfully with the two events
of `<a></a>`, stopping at offset 7 and leaving the trailing `</a>`
unconsumed. -/
theorem claim_C1_counterexample :
    parse_element (ParseContext.fromStr "<a></a></a>") =
      .ok [ReadEvent.ElementStart ⟨none, ⟨1, 1, 1, 2⟩⟩ [],
           ReadEvent.ElementEnd ⟨none, ⟨5, 1, 1, 6⟩⟩]
        ⟨"<a></a></a>".data, 7, 1, 8⟩ := by
  decide

/-- C1 (amended): when `parse_element` processes an ElementEnd event it
pops the open-element stack; a differing local name, or a start tag
carrying a namespace segment that the end tag lacks or differs from,
is the Fatal `Mismatch` error carrying both names, so `<a><b></a>`
reports the `b` start span together with the `a` end span and
`<p:a></a>` also mismatches; an end tag whose namespace segment the
start tag lacks is accepted (`<a></p:a>`); and `parse_element` returns
as soon as the stack empties, so `<a></a></a>` succeeds with the
trailing `</a>` unconsumed and the `HangEndTag` branch is not
exercised. -/
theorem claim_C1_element_end_validation :
    parse_element (ParseContext.fromStr "<a><b></a>") =
      .err (.Fatal (.Mismatch ⟨none, ⟨4, 1, 1, 5⟩⟩ ⟨none, ⟨8, 1, 1, 9⟩⟩)) ∧
    parse_element (ParseContext.fromStr "<p:a></a>") =
      .err (.Fatal (.Mismatch ⟨some ⟨1, 1, 1, 2⟩, ⟨3, 1, 1, 4⟩⟩ ⟨none, ⟨7, 1, 1, 8⟩⟩)) ∧
    parse_element (ParseContext.fromStr "<a></p:a>") =
      .ok [ReadEvent.ElementStart ⟨none, ⟨1, 1, 1, 2⟩⟩ [],
           ReadEvent.ElementEnd ⟨some ⟨5, 1, 1, 6⟩, ⟨7, 1, 1, 8⟩⟩]
        ⟨"<a></p:a>".data, 9, 1, 10⟩ ∧
    parse_element (ParseContext.fromStr "<a></a></a>") =
      .ok [ReadEvent.ElementStart ⟨none, ⟨1, 1, 1, 2⟩⟩ [],
           ReadEvent.ElementEnd ⟨none, ⟨5, 1, 1, 6⟩⟩]
        ⟨"<a></a></a>".data, 7, 1, 8⟩ := by
  refine ⟨by decide, by decide, by decide, by decide⟩

/-- C9: `PI::parse` is not total: on `<?a b` — a `<?`, a valid non-xml
target, whitespace, then a body reaching end of input with no further
`?` — the `expect` on the `?`-run panics instead of producing a
ReadError. -/
theorem claim_C9_pi_panics :
    PI.parse (ParseContext.fromStr "<?a b") = .panicked := by
  decide

/-- C7: `parse_xml_decl` requires the version attribute and accepts
encoding and standalone only as optional fields with encoding before
standalone: the minimal declaration parses with both optional fields
`None`; a declaration with version, encoding and standalone in order
populates all three; the reversed order fails; and a declaration
without `version` fails with the Fatal expect-version error. -/
theorem claim_C7_xml_decl :
    parse_xml_decl (ParseContext.fromStr "<?xml version=\"1.0\"?>") =
      .ok (.XmlDecl .Ver10 none none (some ⟨0, 21, 1, 1⟩))
        ⟨"<?xml version=\"1.0\"?>".data, 21, 1, 22⟩ ∧
    parse_xml_decl (ParseContext.fromChars xmlDeclFullInput) =
      .ok (.XmlDecl .Ver10 (some "utf-16".data) (some false) (some ⟨0, 55, 1, 1⟩))
        ⟨xmlDeclFullInput, 55, 1, 56⟩ ∧
    parse_xml_decl (ParseContext.fromChars xmlDeclSwappedInput) =
      .err (.Recoverable (.Parserc .EnsureKeyword)) ∧
    parse_xml_decl (ParseContext.fromStr "<?xml encoding=\"utf-8\"?>") =
      .err (.Fatal (.Version .LitVer ⟨6, 1, 1, 7⟩)) := by
  refine ⟨by decide, by decide, by decide, by decide⟩

/-- C6 counterexample: the claim predicts that a name beginning with a
colon such as `:foo` is rejected by the Name parser; instead
`misc.rs`'s `Name::parse` accepts it, returning the whole `:foo` as the
name span (the repository's own `test_name` asserts the same for
`:hello`). -/
theorem claim_C6_counterexample :
    NameM.parse (ParseContext.fromStr ":foo") =
      .ok ⟨⟨0, 4, 1, 1⟩⟩ ⟨":foo".data, 4, 1, 5⟩ := by
  decide

/-- C6 (amended): `misc.rs`'s `Name::parse` accepts exactly the names
whose first character is an underscore, a colon, or alphabetic — so a
leading colon such as `:foo` is accepted rather than rejected, while a
leading digit (or any other character) fails Recoverable. -/
theorem claim_C6_name_start_chars (ctx : ParseContext) (c : Char)
    (hlt : ctx.offset < ctx.input.length)
    (hc : ctx.input.getD ctx.offset (Char.ofNat 32) = c) :
    (∃ nm ctx2, NameM.parse ctx = .ok nm ctx2) ↔
      (c = Char.ofNat 95 ∨ c = Char.ofNat 58 ∨ rustIsAlphabetic c) := by
  unfold NameM.parse liftR liftK ensure_char_if
  rw [if_pos hlt]
  rw [hc]
  constructor
  · rintro ⟨nm, ctx2, h⟩
    by_contra hn
    rw [if_neg (by rw [decide_eq_true_eq]; exact hn)] at h
    simp [pmapErr, PR.bind] at h
  · intro hp
    rw [if_pos (decide_eq_true hp)]
    simp only [pmapErr, PR.bind]
    rcases htw : take_while
        (fun c => decide (c = Char.ofNat 95 ∨ c = Char.ofNat 58 ∨ c = dashChar ∨
          c = Char.ofNat 46 ∨ rustIsAlphanumeric c = true)) (ctx.advChar c) with ⟨o, ctx2⟩
    cases o
    · exact ⟨_, _, rfl⟩
    · exact ⟨_, _, rfl⟩

/-- C6 amended witness at the concrete input `:foo`. -/
theorem claim_C6_name_start_chars_witness :
    (∃ nm ctx2, NameM.parse (ParseContext.fromStr ":foo") = .ok nm ctx2) ↔
      ((Char.ofNat 58 : Char) = Char.ofNat 95 ∨
        (Char.ofNat 58 : Char) = Char.ofNat 58 ∨
        rustIsAlphabetic (Char.ofNat 58)) :=
  claim_C6_name_start_chars (ParseContext.fromStr ":foo") (Char.ofNat 58)
    (by decide) (by decide)

/-- Advancing one character never changes the input. -/
theorem advChar_input (ctx : ParseContext) (c : Char) :
    (ctx.advChar c).input = ctx.input := by
  unfold ParseContext.advChar
  split <;> rfl

/-- Advancing one character moves the offset by one. -/
theorem advChar_offset (ctx : ParseContext) (c : Char) :
    (ctx.advChar c).offset = ctx.offset + 1 := by
  unfold ParseContext.advChar
  split <;> rfl

/-- Advancing over a list never changes the input. -/
theorem advList_input (u : List Char) :
    ∀ ctx : ParseContext, (ctx.advList u).input = ctx.input := by
  induction u with
  | nil => intro ctx; rfl
  | cons c u ih =>
    intro ctx
    show ((ctx.advChar c).advList u).input = _
    rw [ih, advChar_input]

/-- Advancing over a list moves the offset by its length. -/
theorem advList_offset (u : List Char) :
    ∀ ctx : ParseContext, (ctx.advList u).offset = ctx.offset + u.length := by
  induction u with
  | nil => intro ctx; rfl
  | cons c u ih =>
    intro ctx
    show ((ctx.advChar c).advList u).offset = _
    rw [ih, advChar_offset, List.length_cons]
    omega

/-- A cursor whose unread input starts with a character is not at end
of input. -/
theorem offset_lt_of_drop_cons {ctx : ParseContext} {c : Char} {l : List Char}
    (h : ctx.input.drop ctx.offset = c :: l) : ctx.offset < ctx.input.length := by
  by_contra hge
  push_neg at hge
  rw [List.drop_eq_nil_of_le hge] at h
  exact List.noConfusion h

/-- The current character of a cursor whose unread input starts with
`c`. -/
theorem getD_of_drop_cons {ctx : ParseContext} {c : Char} {l : List Char}
    (h : ctx.input.drop ctx.offset = c :: l) (d : Char) :
    ctx.input.getD ctx.offset d = c := by
  have h0 : (ctx.input.drop ctx.offset).getD 0 d = c := by rw [h]; rfl
  rwa [List.getD_eq_getElem?_getD, List.getElem?_drop, Nat.add_zero,
    ← List.getD_eq_getElem?_getD] at h0

/-- Advancing over the head exposes the tail as the unread input. -/
theorem drop_advChar {ctx : ParseContext} {c : Char} {l : List Char}
    (h : ctx.input.drop ctx.offset = c :: l) :
    (ctx.advChar c).input.drop (ctx.advChar c).offset = l := by
  rw [advChar_input, advChar_offset]
  have h2 := congrArg (List.drop 1) h
  rw [List.drop_drop] at h2
  simpa using h2

/-- The unread-character count equals the length of the unread
suffix. -/
theorem remaining_eq_of_drop {ctx : ParseContext} {l : List Char}
    (h : ctx.input.drop ctx.offset = l) : ctx.remaining = l.length := by
  unfold ParseContext.remaining
  rw [← h, List.length_drop]

/-- Advancing over the unread prefix `u` leaves `v` unread. -/
theorem drop_advList (u : List Char) :
    ∀ (ctx : ParseContext) (v : List Char),
      ctx.input.drop ctx.offset = u ++ v →
      (ctx.advList u).input.drop (ctx.advList u).offset = v := by
  induction u with
  | nil => intro ctx v h; exact h
  | cons c u ih =>
    intro ctx v h
    show ((ctx.advChar c).advList u).input.drop _ = v
    exact ih (ctx.advChar c) v (drop_advChar (by simpa using h))

/-- Specification of the `take_while` loop: it consumes exactly the
maximal satisfying prefix. -/
theorem takeWhileLoop_spec (p : Char → Bool) (u : List Char) :
    ∀ (ctx : ParseContext) (v : List Char) (n : Nat),
      ctx.input.drop ctx.offset = u ++ v →
      (∀ c ∈ u, p c = true) →
      (∀ c, v.head? = some c → p c = false) →
      ctx.remaining ≤ n →
      takeWhileLoop p n ctx = ctx.advList u := by
  induction u with
  | nil =>
    intro ctx v n hdrop hu hv hn
    cases v with
    | nil =>
      have hge : ctx.input.length ≤ ctx.offset := by
        by_contra hlt
        push_neg at hlt
        have := remaining_eq_of_drop hdrop
        unfold ParseContext.remaining at this
        simp at this
        omega
      cases n with
      | zero => rfl
      | succ n =>
        show (if ctx.offset < ctx.input.length then _ else ctx) = _
        rw [if_neg (by omega)]
        rfl
    | cons c l =>
      have hdropc : ctx.input.drop ctx.offset = c :: l := by simpa using hdrop
      have hrem : ctx.remaining = (c :: l).length := remaining_eq_of_drop hdropc
      cases n with
      | zero => simp [List.length_cons] at hrem; omega
      | succ n =>
        show (if ctx.offset < ctx.input.length then _ else ctx) = _
        rw [if_pos (offset_lt_of_drop_cons hdropc)]
        simp only [getD_of_drop_cons hdropc]
        rw [if_neg (by rw [hv c rfl]; simp)]
        rfl
  | cons c u ih =>
    intro ctx v n hdrop hu hv hn
    have hdropc : ctx.input.drop ctx.offset = c :: (u ++ v) := by simpa using hdrop
    have hrem : ctx.remaining = (c :: (u ++ v)).length := remaining_eq_of_drop hdropc
    cases n with
    | zero => simp [List.length_cons] at hrem; omega
    | succ n =>
      show (if ctx.offset < ctx.input.length then _ else ctx) = _
      rw [if_pos (offset_lt_of_drop_cons hdropc)]
      simp only [getD_of_drop_cons hdropc]
      rw [if_pos (hu c (List.mem_cons_self c u))]
      show takeWhileLoop p n (ctx.advChar c) = _
      have hrec := ih (ctx.advChar c) v n (drop_advChar hdropc) (fun x hx => hu x (List.mem_cons_of_mem c hx)) hv
        (by
          have h2 : (ctx.advChar c).remaining = (u ++ v).length :=
            remaining_eq_of_drop (drop_advChar hdropc)
          rw [h2]
          rw [hrem] at hn
          simp [List.length_cons] at hn ⊢
          omega)
      exact hrec

/-- Specification of `take_while`: the maximal satisfying prefix is
returned as a span (or `none` when empty) and consumed. -/
theorem take_while_spec (p : Char → Bool) (u v : List Char) (ctx : ParseContext)
    (hdrop : ctx.input.drop ctx.offset = u ++ v)
    (hu : ∀ c ∈ u, p c = true)
    (hv : ∀ c, v.head? = some c → p c = false) :
    take_while p ctx =
      ((if u = [] then none else some ⟨ctx.offset, u.length, ctx.line, ctx.col⟩),
       ctx.advList u) := by
  unfold take_while
  rw [takeWhileLoop_spec p u ctx v ctx.remaining hdrop hu hv (Nat.le_refl _)]
  simp only [advList_offset, Nat.add_sub_cancel_left]
  cases u with
  | nil => simp [ParseContext.advList]
  | cons c u => simp

/-- Specification of `take_till`, phrased over its negated predicate. -/
theorem take_till_spec (p : Char → Bool) (u v : List Char) (ctx : ParseContext)
    (hdrop : ctx.input.drop ctx.offset = u ++ v)
    (hu : ∀ c ∈ u, p c = false)
    (hv : ∀ c, v.head? = some c → p c = true) :
    take_till p ctx =
      ((if u = [] then none else some ⟨ctx.offset, u.length, ctx.line, ctx.col⟩),
       ctx.advList u) := by
  unfold take_till
  exact take_while_spec _ u v ctx hdrop
    (fun c hc => by simp [hu c hc])
    (fun c hc => by simp [hv c hc])

/-- Advancing over a concatenation advances over both parts in
order. -/
theorem advList_append (a : List Char) :
    ∀ (ctx : ParseContext) (b : List Char),
      ctx.advList (a ++ b) = (ctx.advList a).advList b := by
  induction a with
  | nil => intro ctx b; rfl
  | cons c a ih =>
    intro ctx b
    show (ctx.advChar c).advList (a ++ b) = _
    exact ih (ctx.advChar c) b

/-- Peeking a cursor whose unread input starts with `c`. -/
theorem peekC_of_drop_cons {ctx : ParseContext} {c : Char} {l : List Char}
    (h : ctx.input.drop ctx.offset = c :: l) :
    ctx.peekC = (some c, ctx.span) := by
  unfold ParseContext.peekC
  rw [if_pos (offset_lt_of_drop_cons h), getD_of_drop_cons h]

/-- Every list of characters splits at its first dash, or has none. -/
theorem split_at_dash (s : List Char) :
    (∀ c ∈ s, c ≠ dashChar) ∨
      ∃ u t, s = u ++ dashChar :: t ∧ (∀ c ∈ u, c ≠ dashChar) := by
  induction s with
  | nil => exact Or.inl (by simp)
  | cons c s ih =>
    by_cases hc : c = dashChar
    · right
      exact ⟨[], s, by rw [hc]; rfl, by simp⟩
    · rcases ih with h | ⟨u, t, hs, hu⟩
      · left
        intro x hx
        rcases List.mem_cons.mp hx with h1 | h1
        · rwa [h1]
        · exact h x h1
      · right
        refine ⟨c :: u, t, by rw [hs]; rfl, ?_⟩
        intro x hx
        rcases List.mem_cons.mp hx with h1 | h1
        · rwa [h1]
        · exact hu x h1

/-- Every list splits into its leading dash run and a remainder not
starting with a dash. -/
theorem split_dash_run (s : List Char) :
    ∃ r t, s = r ++ t ∧ (∀ c ∈ r, c = dashChar) ∧
      (∀ c, t.head? = some c → c ≠ dashChar) := by
  induction s with
  | nil => exact ⟨[], [], rfl, by simp, by simp⟩
  | cons c s ih =>
    by_cases hc : c = dashChar
    · rcases ih with ⟨r, t, hs, hr, ht⟩
      refine ⟨c :: r, t, by rw [hs]; rfl, ?_, ht⟩
      intro x hx
      rcases List.mem_cons.mp hx with h1 | h1
      · rwa [h1]
      · exact hr x h1
    · exact ⟨[], c :: s, rfl, by simp,
        by intro x hx; simp at hx; rwa [← hx]⟩

/-- Specification of `ensure_keyword` on a matching input. -/
theorem ensure_keyword_spec (kw v : List Char) (ctx : ParseContext)
    (hdrop : ctx.input.drop ctx.offset = kw ++ v) :
    ensure_keyword kw ctx =
      .ok ⟨ctx.offset, kw.length, ctx.line, ctx.col⟩ (ctx.advList kw) := by
  unfold ensure_keyword
  rw [if_pos (by rw [hdrop]; exact List.take_left kw v)]

/-- Specification of `ensure_char` on a matching input. -/
theorem ensure_char_spec_ok (c : Char) (l : List Char) (ctx : ParseContext)
    (hdrop : ctx.input.drop ctx.offset = c :: l) :
    ensure_char c ctx = .ok ctx.span (ctx.advChar c) := by
  unfold ensure_char
  rw [if_pos ⟨offset_lt_of_drop_cons hdrop, getD_of_drop_cons hdrop _⟩]

/-- Specification of `ensure_char` on a mismatching head character. -/
theorem ensure_char_spec_ne (c c' : Char) (l : List Char) (ctx : ParseContext)
    (hdrop : ctx.input.drop ctx.offset = c :: l) (hne : c ≠ c') :
    ensure_char c' ctx = .err (.Recoverable .EnsureChar) := by
  unfold ensure_char
  rw [if_neg]
  rintro ⟨-, heq⟩
  exact hne ((getD_of_drop_cons hdrop _).symm.trans heq)

/-- Reading one character from a cursor whose unread input starts with
`c`. -/
theorem nextC_of_drop_cons {ctx : ParseContext} {c : Char} {l : List Char}
    (h : ctx.input.drop ctx.offset = c :: l) :
    ctx.nextC = ((some c, ctx.span), ctx.advChar c) := by
  unfold ParseContext.nextC ParseContext.peekC
  rw [if_pos (offset_lt_of_drop_cons h), getD_of_drop_cons h]

/-- Reading one character at end of input. -/
theorem nextC_of_drop_nil {ctx : ParseContext}
    (h : ctx.input.drop ctx.offset = []) :
    ctx.nextC = ((none, ctx.span), ctx) := by
  unfold ParseContext.nextC ParseContext.peekC
  rw [if_neg (by have := List.drop_eq_nil_iff.mp h; omega)]

/-- Advancing over a character other than the newline increments the
column and keeps the line. -/
theorem advChar_not_nl {ctx : ParseContext} {c : Char} (h : c ≠ Char.ofNat 10) :
    ctx.advChar c = ⟨ctx.input, ctx.offset + 1, ctx.line, ctx.col + 1⟩ := by
  unfold ParseContext.advChar
  rw [if_neg h]

/-- One unfolding step of the quote-scan loop. -/
theorem quoteLoopM_succ (f : Char → Except ReadError Unit) (dq : Bool) (q : Char)
    (start : Span) (n : Nat) (ctx : ParseContext) :
    quoteLoopM f dq q start (n + 1) ctx =
      match ctx.nextC with
      | ((none, sp), _) =>
        .err (.Fatal (.Quote (.suf (if dq then dquoteStr else squoteStr)) sp))
      | ((some c, sp), ctx1) =>
        if c = q then .ok (start.extend_to sp) ctx1
        else match f c with
          | .ok _ => quoteLoopM f dq q start n ctx1
          | .error e => .err (.Fatal e) := rfl

/-- The quote-scan loop on content free of the closing quote, followed
by the closing quote: returns the span strictly between the quotes and
consumes through the closing quote. -/
theorem quoteLoopM_closes (content : List Char) :
    ∀ (ctx : ParseContext) (f : Char → Except ReadError Unit) (dq : Bool)
      (q : Char) (start : Span) (rest : List Char) (n : Nat),
      ctx.input.drop ctx.offset = content ++ q :: rest →
      (∀ c ∈ content, c ≠ q) →
      (∀ c ∈ content, f c = .ok ()) →
      n = ctx.remaining →
      quoteLoopM f dq q start n ctx =
        .ok ⟨start.offset, ctx.offset + content.length - start.offset,
             start.line, start.col⟩
          (ctx.advList (content ++ [q])) := by
  induction content with
  | nil =>
    intro ctx f dq q start rest n hdrop _ _ hn
    have hdropc : ctx.input.drop ctx.offset = q :: rest := by simpa using hdrop
    have hrem : ctx.remaining = (q :: rest).length := remaining_eq_of_drop hdropc
    cases n with
    | zero => rw [hrem] at hn; simp at hn
    | succ n =>
      rw [quoteLoopM_succ, nextC_of_drop_cons hdropc]
      simp only [if_pos rfl]
      unfold Span.extend_to ParseContext.span
      simp [ParseContext.advList]
  | cons c content ih =>
    intro ctx f dq q start rest n hdrop hnq hf hn
    have hdropc : ctx.input.drop ctx.offset = c :: (content ++ q :: rest) := by
      simpa using hdrop
    have hrem : ctx.remaining = (c :: (content ++ q :: rest)).length :=
      remaining_eq_of_drop hdropc
    cases n with
    | zero => rw [hrem] at hn; simp at hn
    | succ n =>
      rw [quoteLoopM_succ, nextC_of_drop_cons hdropc]
      simp only
      rw [if_neg (hnq c (List.mem_cons_self c content))]
      rw [hf c (List.mem_cons_self c content)]
      have hrec := ih (ctx.advChar c) f dq q start rest n (drop_advChar hdropc)
        (fun x hx => hnq x (List.mem_cons_of_mem c hx))
        (fun x hx => hf x (List.mem_cons_of_mem c hx))
        (by
          have h2 : (ctx.advChar c).remaining = (content ++ q :: rest).length :=
            remaining_eq_of_drop (drop_advChar hdropc)
          rw [h2]
          rw [hrem] at hn
          simp at hn ⊢
          omega)
      rw [hrec]
      rw [advChar_offset]
      have hsp : (⟨start.offset, ctx.offset + 1 + content.length - start.offset,
          start.line, start.col⟩ : Span) =
          ⟨start.offset, ctx.offset + (c :: content).length - start.offset,
           start.line, start.col⟩ := by
        simp [List.length_cons]
        omega
      rw [hsp]
      rfl

/-- The quote-scan loop reaching end of input with no closing quote:
Fatal expect-closing-quote. -/
theorem quoteLoopM_eof (content : List Char) :
    ∀ (ctx : ParseContext) (f : Char → Except ReadError Unit) (dq : Bool)
      (q : Char) (start : Span) (n : Nat),
      ctx.input.drop ctx.offset = content →
      (∀ c ∈ content, c ≠ q) →
      (∀ c ∈ content, f c = .ok ()) →
      n = ctx.remaining →
      ∃ sp, quoteLoopM f dq q start n ctx =
        .err (.Fatal (.Quote (.suf (if dq then dquoteStr else squoteStr)) sp)) := by
  induction content with
  | nil =>
    intro ctx f dq q start n hdrop _ _ hn
    have hrem : ctx.remaining = 0 := by
      rw [remaining_eq_of_drop hdrop]; rfl
    cases n with
    | zero => exact ⟨ctx.span, rfl⟩
    | succ n => rw [hrem] at hn; simp at hn
  | cons c content ih =>
    intro ctx f dq q start n hdrop hnq hf hn
    have hrem : ctx.remaining = (c :: content).length := remaining_eq_of_drop hdrop
    cases n with
    | zero => rw [hrem] at hn; simp at hn
    | succ n =>
      rw [quoteLoopM_succ, nextC_of_drop_cons hdrop]
      simp only
      rw [if_neg (hnq c (List.mem_cons_self c content))]
      rw [hf c (List.mem_cons_self c content)]
      exact ih (ctx.advChar c) f dq q start n (drop_advChar hdrop)
        (fun x hx => hnq x (List.mem_cons_of_mem c hx))
        (fun x hx => hf x (List.mem_cons_of_mem c hx))
        (by
          have h2 : (ctx.advChar c).remaining = content.length :=
            remaining_eq_of_drop (drop_advChar hdrop)
          rw [h2]
          rw [hrem] at hn
          simp at hn
          omega)

/-- Peeking at end of input. -/
theorem peekC_of_drop_nil {ctx : ParseContext}
    (h : ctx.input.drop ctx.offset = []) :
    ctx.peekC = (none, ctx.span) := by
  unfold ParseContext.peekC
  rw [if_neg (by have := List.drop_eq_nil_iff.mp h; omega)]

/-- Advancing over newline-free characters adds their count to both
offset and column, keeping the line. -/
theorem advList_no_nl (u : List Char) :
    ∀ ctx : ParseContext, (∀ c ∈ u, c ≠ Char.ofNat 10) →
      ctx.advList u = ⟨ctx.input, ctx.offset + u.length, ctx.line,
        ctx.col + u.length⟩ := by
  induction u with
  | nil => intro ctx _; rfl
  | cons c u ih =>
    intro ctx hc
    show ((ctx.advChar c).advList u) = _
    rw [ih (ctx.advChar c) (fun x hx => hc x (List.mem_cons_of_mem c hx))]
    rw [advChar_not_nl (hc c (List.mem_cons_self c u))]
    simp [List.length_cons]
    omega

/-- One unfolding step of the comment-scan loop. -/
theorem commentLoopM_succ (content : Span) (n : Nat) (ctx : ParseContext) :
    commentLoopM content (n + 1) ctx =
      (match take_till (fun c => c = dashChar) ctx with
       | (tt, ctx1) =>
         let content1 := match tt with
           | some chars => content.extend_to_inclusive chars
           | none => content
         match take_while (fun c => c = dashChar) ctx1 with
         | (none, ctx2) => .err (.Fatal (.Comment (.suf "-->") ctx2.span))
         | (some dashes, ctx2) =>
           let content2 := content1.extend_to_inclusive dashes
           if 1 < dashes.len then
             match ctx2.peekC with
             | (some g, _) =>
               if g = gtChar then
                 .ok { content2 with len := content2.len - 2 } (ctx2.advChar g)
               else commentLoopM content2 n ctx2
             | (none, _) => commentLoopM content2 n ctx2
           else commentLoopM content2 n ctx2) := rfl

/-- The comment-scan loop on double-dash-free content followed by the
`-->` terminator: returns the content span (the trailing two dashes of
the captured text trimmed) and consumes through the terminator. -/
theorem commentLoopM_complete (n : Nat) :
    ∀ (s rest : List Char) (ctx : ParseContext) (content : Span),
      ctx.input.drop ctx.offset =
        s ++ dashChar :: dashChar :: gtChar :: rest →
      ¬ [dashChar, dashChar] <:+: s →
      content.offset + content.len = ctx.offset →
      ctx.remaining ≤ n →
      commentLoopM content n ctx =
        .ok ⟨content.offset, ctx.offset + s.length - content.offset,
             content.line, content.col⟩
          (ctx.advList (s ++ [dashChar, dashChar, gtChar])) := by
  induction n with
  | zero =>
    intro s rest ctx content hdrop _ _ hn
    have := remaining_eq_of_drop hdrop
    simp [List.length_append] at this
    omega
  | succ n ih =>
    intro s rest ctx content hdrop hnd hinv hn
    obtain ⟨co, cl, cli, cco⟩ := content
    simp only at hinv
    rcases split_at_dash s with hnod | ⟨u, t, hsplit, hu⟩
    · -- no dash inside s: the terminator's dash run closes the comment
      rw [commentLoopM_succ]
      rw [take_till_spec _ s (dashChar :: dashChar :: gtChar :: rest) ctx hdrop
        (fun c hc => by simp [hnod c hc]) (fun c hc => by simp at hc; subst hc; decide)]
      simp only
      have hc1 : (match (if s = [] then none
            else some (⟨ctx.offset, s.length, ctx.line, ctx.col⟩ : Span)) with
          | some chars =>
            Span.extend_to_inclusive ⟨co, cl, cli, cco⟩ chars
          | none => (⟨co, cl, cli, cco⟩ : Span)) =
          ⟨co, ctx.offset + s.length - co, cli, cco⟩ := by
        by_cases hs0 : s = []
        · rw [if_pos hs0]
          show (⟨co, cl, cli, cco⟩ : Span) = _
          simp only [hs0, List.length_nil, Nat.add_zero]
          have hcl : cl = ctx.offset - co := by omega
          rw [hcl]
        · rw [if_neg hs0]
          rfl
      rw [hc1]
      have hdrop1 : (ctx.advList s).input.drop (ctx.advList s).offset =
          [dashChar, dashChar] ++ (gtChar :: rest) := by
        have := drop_advList s ctx (dashChar :: dashChar :: gtChar :: rest) hdrop
        simpa using this
      rw [take_while_spec _ [dashChar, dashChar] (gtChar :: rest) _ hdrop1
        (by decide) (fun c hc => by simp at hc; subst hc; decide)]
      rw [if_neg (by decide : ¬ ([dashChar, dashChar] = ([] : List Char)))]
      dsimp only
      rw [if_pos (by decide)]
      have hdrop2 : ((ctx.advList s).advList [dashChar, dashChar]).input.drop
          ((ctx.advList s).advList [dashChar, dashChar]).offset = gtChar :: rest :=
        drop_advList [dashChar, dashChar] (ctx.advList s) (gtChar :: rest) hdrop1
      rw [peekC_of_drop_cons hdrop2]
      dsimp only
      rw [if_pos rfl]
      unfold Span.extend_to_inclusive
      simp only [advList_offset]
      congr 1
      · simp only [List.length_cons, List.length_nil, Span.mk.injEq, and_true,
          true_and]
        omega
      · rw [advList_append s ctx [dashChar, dashChar, gtChar]]
        have : ([dashChar, dashChar, gtChar] : List Char) =
            [dashChar, dashChar] ++ [gtChar] := rfl
        rw [this, advList_append]
        rfl
    · -- s = u ++ '-' :: t with u dash-free; the double-dash-free
      -- hypothesis forces t to not start with a dash
      have htnd : ∀ c, t.head? = some c → c ≠ dashChar := by
        intro c hc hceq
        cases t with
        | nil => exact Option.noConfusion hc
        | cons c0 t' =>
          have hc0 : c0 = c := by simpa using hc
          apply hnd
          refine ⟨u, t', ?_⟩
          rw [hsplit, hc0, hceq]
          simp
      have hdropu : ctx.input.drop ctx.offset =
          u ++ (dashChar :: (t ++ dashChar :: dashChar :: gtChar :: rest)) := by
        rw [hdrop, hsplit]
        simp
      rw [commentLoopM_succ]
      rw [take_till_spec _ u (dashChar :: (t ++ dashChar :: dashChar :: gtChar :: rest))
        ctx hdropu (fun c hc => by simp [hu c hc]) (fun c hc => by simp at hc; subst hc; decide)]
      simp only
      have hc1 : (match (if u = [] then none
            else some (⟨ctx.offset, u.length, ctx.line, ctx.col⟩ : Span)) with
          | some chars =>
            Span.extend_to_inclusive ⟨co, cl, cli, cco⟩ chars
          | none => (⟨co, cl, cli, cco⟩ : Span)) =
          ⟨co, ctx.offset + u.length - co, cli, cco⟩ := by
        by_cases hs0 : u = []
        · rw [if_pos hs0]
          show (⟨co, cl, cli, cco⟩ : Span) = _
          simp only [hs0, List.length_nil, Nat.add_zero]
          have hcl : cl = ctx.offset - co := by omega
          rw [hcl]
        · rw [if_neg hs0]
          rfl
      rw [hc1]
      have hdropd : (ctx.advList u).input.drop (ctx.advList u).offset =
          dashChar :: (t ++ dashChar :: dashChar :: gtChar :: rest) :=
        drop_advList u ctx _ hdropu
      cases t with
      | nil =>
        -- the split dash merges with the terminator: a run of three
        have hdropd3 : (ctx.advList u).input.drop (ctx.advList u).offset =
            [dashChar, dashChar, dashChar] ++ (gtChar :: rest) := by
          simpa using hdropd
        rw [take_while_spec _ [dashChar, dashChar, dashChar] (gtChar :: rest) _
          hdropd3 (by decide) (fun c hc => by simp at hc; subst hc; decide)]
        rw [if_neg (by decide : ¬ ([dashChar, dashChar, dashChar] = ([] : List Char)))]
        dsimp only
        rw [if_pos (by decide)]
        have hdrop2 : ((ctx.advList u).advList [dashChar, dashChar, dashChar]).input.drop
            ((ctx.advList u).advList [dashChar, dashChar, dashChar]).offset =
            gtChar :: rest :=
          drop_advList [dashChar, dashChar, dashChar] (ctx.advList u) (gtChar :: rest)
            hdropd3
        rw [peekC_of_drop_cons hdrop2]
        dsimp only
        rw [if_pos rfl]
        unfold Span.extend_to_inclusive
        simp only [advList_offset]
        congr 1
        · simp only [List.length_cons, List.length_nil, Span.mk.injEq, and_true,
            true_and]
          rw [hsplit]
          simp
          omega
        · rw [hsplit]
          rw [show ((u ++ [dashChar]) ++ [dashChar, dashChar, gtChar] : List Char)
              = u ++ ([dashChar, dashChar, dashChar] ++ [gtChar]) from by simp]
          rw [advList_append, advList_append]
          rfl
      | cons c2 t2 =>
        have hc2 : c2 ≠ dashChar := htnd c2 rfl
        have hdropd1 : (ctx.advList u).input.drop (ctx.advList u).offset =
            [dashChar] ++ ((c2 :: t2) ++ dashChar :: dashChar :: gtChar :: rest) := by
          simpa using hdropd
        rw [take_while_spec _ [dashChar]
          ((c2 :: t2) ++ dashChar :: dashChar :: gtChar :: rest) _ hdropd1
          (by decide) (fun c hc => by simp at hc; subst hc; simp [hc2])]
        rw [if_neg (by decide : ¬ ([dashChar] = ([] : List Char)))]
        dsimp only
        rw [if_neg (by decide : ¬ (1 < [dashChar].length))]
        have hrec := ih (c2 :: t2) rest ((ctx.advList u).advList [dashChar])
          ⟨co, (ctx.advList u).offset + 1 - co, cli, cco⟩
          (drop_advList [dashChar] (ctx.advList u) _ hdropd1)
          (by
            intro hin
            apply hnd
            rcases hin with ⟨a, b, hab⟩
            refine ⟨u ++ dashChar :: a, b, ?_⟩
            rw [hsplit, ← hab]
            simp)
          (by simp [advList_offset]; omega)
          (by
            have h1 := remaining_eq_of_drop
              (drop_advList [dashChar] (ctx.advList u) _ hdropd1)
            have h2 := remaining_eq_of_drop hdrop
            rw [h1]
            rw [h2] at hn
            rw [hsplit] at hn
            simp at hn ⊢
            omega)
        have hc2span : Span.extend_to_inclusive ⟨co, ctx.offset + u.length - co, cli, cco⟩
            ⟨(ctx.advList u).offset, [dashChar].length,
              (ctx.advList u).line, (ctx.advList u).col⟩ =
            ⟨co, (ctx.advList u).offset + 1 - co, cli, cco⟩ := by
          unfold Span.extend_to_inclusive
          rfl
        rw [hc2span, hrec]
        congr 1
        · simp only [Span.mk.injEq, advList_offset, and_true, true_and]
          rw [hsplit]
          simp
          omega
        · rw [hsplit]
          rw [← advList_append, ← advList_append]
          congr 1
          simp

/-- If the unread input contains no double dash, the comment loop never
finds a terminator and fails Fatal (expect suffix) by end of input. -/
theorem commentLoopM_eof (n : Nat) :
    ∀ (s : List Char) (ctx : ParseContext) (content : Span),
      ctx.input.drop ctx.offset = s →
      ¬ [dashChar, dashChar] <:+: s →
      ctx.remaining ≤ n →
      ∃ sp, commentLoopM content n ctx =
        .err (.Fatal (.Comment (.suf "-->") sp)) := by
  induction n with
  | zero =>
    intro s ctx content _ _ _
    exact ⟨ctx.span, rfl⟩
  | succ n ih =>
    intro s ctx content hdrop hnd hn
    rcases split_at_dash s with hnod | ⟨u, t, hsplit, hu⟩
    · -- no dash left: take_till eats everything and the dash run is empty
      rw [commentLoopM_succ]
      rw [take_till_spec _ s [] ctx (by simpa using hdrop)
        (fun c hc => by simp [hnod c hc]) (fun c hc => by simp at hc)]
      simp only
      have hdrop1 : (ctx.advList s).input.drop (ctx.advList s).offset = [] :=
        drop_advList s ctx [] (by simpa using hdrop)
      rw [take_while_spec _ [] [] _ (by simpa using hdrop1) (by simp)
        (fun c hc => by simp at hc)]
      rw [if_pos rfl]
      exact ⟨_, rfl⟩
    · -- a single dash: consume it and recurse on the tail
      have htnd : ∀ c, t.head? = some c → c ≠ dashChar := by
        intro c hc hceq
        cases t with
        | nil => exact Option.noConfusion hc
        | cons c0 t0 =>
          have hc0 : c0 = c := by simpa using hc
          apply hnd
          refine ⟨u, t0, ?_⟩
          rw [hsplit, hc0, hceq]
          simp
      have hdropu : ctx.input.drop ctx.offset = u ++ (dashChar :: t) := by
        rw [hdrop, hsplit]
      rw [commentLoopM_succ]
      rw [take_till_spec _ u (dashChar :: t) ctx hdropu
        (fun c hc => by simp [hu c hc]) (fun c hc => by simp at hc; subst hc; decide)]
      simp only
      have hdropd : (ctx.advList u).input.drop (ctx.advList u).offset =
          dashChar :: t := drop_advList u ctx _ hdropu
      rw [take_while_spec _ [dashChar] t _ (by simpa using hdropd) (by decide)
        (fun c hc => by simp [htnd c hc])]
      rw [if_neg (by decide : ¬ ([dashChar] = ([] : List Char)))]
      dsimp only
      rw [if_neg (by decide : ¬ (1 < [dashChar].length))]
      have hnd2 : ¬ [dashChar, dashChar] <:+: t := by
        intro hin
        apply hnd
        rcases hin with ⟨a, b, hab⟩
        refine ⟨u ++ dashChar :: a, b, ?_⟩
        rw [hsplit, ← hab]
        simp
      have hn2 : ((ctx.advList u).advList [dashChar]).remaining ≤ n := by
        have h1 := remaining_eq_of_drop
          (drop_advList [dashChar] (ctx.advList u) t (by simpa using hdropd))
        have h2 := remaining_eq_of_drop hdrop
        rw [h1]
        rw [h2] at hn
        rw [hsplit] at hn
        simp at hn ⊢
        omega
      exact ih t ((ctx.advList u).advList [dashChar]) _
        (drop_advList [dashChar] (ctx.advList u) t (by simpa using hdropd)) hnd2 hn2

/-- C2: for every comment input whose content contains no double dash,
`Comment::parse` consumes the `<!--` keyword, the content and the full
`-->` terminator (so a content run of dashes before `-->` merges into the
closing dash run and the trailing two dashes are trimmed back off,
keeping any extra dash as content), and returns exactly the span of the
content: offset just past `<!--`, length equal to the content length; and
reaching end of input before a terminator is the Fatal expect-`-->`
error. -/
theorem claim_C2_comment_round_trip :
    (∀ (c rest : List Char) (ctx : ParseContext),
      ctx.input.drop ctx.offset =
        "<!--".data ++ (c ++ (dashChar :: dashChar :: gtChar :: rest)) →
      ¬ [dashChar, dashChar] <:+: c →
      Comment.parse ctx =
        .ok ⟨ctx.offset + 4, c.length, ctx.line, ctx.col + 4⟩
          (ctx.advList ("<!--".data ++ (c ++ [dashChar, dashChar, gtChar])))) ∧
    (∀ (c : List Char) (ctx : ParseContext),
      ctx.input.drop ctx.offset = "<!--".data ++ c →
      ¬ [dashChar, dashChar] <:+: c →
      ∃ sp, Comment.parse ctx =
        .err (.Fatal (.Comment (.suf "-->") sp))) := by
  constructor
  · intro c rest ctx hdrop hnd
    unfold Comment.parse
    rw [ensure_keyword_spec "<!--".data
      (c ++ (dashChar :: dashChar :: gtChar :: rest)) ctx hdrop]
    dsimp only [liftR, liftK, pmapErr, PR.bind]
    rw [commentLoopM_complete ((ctx.advList "<!--".data).remaining) c rest
      (ctx.advList "<!--".data)
      { (ctx.advList "<!--".data).span with len := 0 }
      (drop_advList "<!--".data ctx _ hdrop) hnd rfl (Nat.le_refl _)]
    rw [advList_append "<!--".data ctx (c ++ [dashChar, dashChar, gtChar])]
    rw [advList_no_nl "<!--".data ctx (by decide)]
    congr 1
    simp [ParseContext.span, ParseContext.remaining]
  · intro c ctx hdrop hnd
    unfold Comment.parse
    rw [ensure_keyword_spec "<!--".data c ctx hdrop]
    dsimp only [liftR, liftK, pmapErr, PR.bind]
    exact commentLoopM_eof ((ctx.advList "<!--".data).remaining) c
      (ctx.advList "<!--".data) _
      (drop_advList "<!--".data ctx c hdrop) hnd (Nat.le_refl _)

/-- Witness for the C2 comment round trip: a content with single dashes,
one of them immediately before the terminator, and a truncated comment. -/
theorem claim_C2_comment_round_trip_witness :
    (Comment.parse (ParseContext.fromStr "<!--a-b--->x") =
      .ok ⟨(ParseContext.fromStr "<!--a-b--->x").offset + 4, "a-b-".data.length,
          (ParseContext.fromStr "<!--a-b--->x").line,
          (ParseContext.fromStr "<!--a-b--->x").col + 4⟩
        ((ParseContext.fromStr "<!--a-b--->x").advList
          ("<!--".data ++ ("a-b-".data ++ [dashChar, dashChar, gtChar])))) ∧
    (∃ sp, Comment.parse (ParseContext.fromStr "<!--ab-c") =
      .err (.Fatal (.Comment (.suf "-->") sp))) :=
  ⟨claim_C2_comment_round_trip.1 "a-b-".data "x".data
      (ParseContext.fromStr "<!--a-b--->x") (by decide) (by decide),
    claim_C2_comment_round_trip.2 "ab-c".data
      (ParseContext.fromStr "<!--ab-c") (by decide) (by decide)⟩

/-- C3 counterexample: on the repository's own test input
`<!DOCTYPE greeting SYSTEM "hello.dtd">`, `parse_doc_type_decl` returns
the span `(0, 38)` covering the whole declaration — both the `<!DOCTYPE`
keyword and the closing `>` are inside the returned span, contradicting
the claim that the returned span runs from just after the keyword to the
final `>` exclusive. -/
theorem claim_C3_counterexample :
    parse_doc_type_decl (ParseContext.fromChars
        ("<!DOCTYPE greeting SYSTEM ".data ++
          dquoteChar :: ("hello.dtd".data ++ [dquoteChar, gtChar]))) =
      .ok ⟨0, 38, 1, 1⟩
        ⟨"<!DOCTYPE greeting SYSTEM ".data ++
          dquoteChar :: ("hello.dtd".data ++ [dquoteChar, gtChar]), 38, 1, 39⟩ := by
  decide

/-- C3 (amended): both DOCTYPE scanners keep a nesting counter started
at 1, incremented on `<` and decremented on `>`, with quoted substrings
skipped wholesale; the lexer variant `next_doc_type` returns the
exclusive interior span (offset just after `<!DOCTYPE`, stopping before
the final `>`): span `(9, 41)` on the nested-declaration example and
`(9, 7)` when a quoted `>` is skipped; an unbalanced input runs to end
of input and yields no token; the `doctype.rs` variant
`parse_doc_type_decl` instead returns the inclusive span of the whole
declaration, keyword and closing `>` included. -/
theorem claim_C3_doctype_spans :
    ((XmLexer.next_doc_type (XmLexer.fromStr
        "<!DOCTYPE greeting [<!ELEMENT greeting (#PCDATA)>]>")).1 =
          .ok (some (.DocType ⟨9, 41⟩)) ∧
      (XmLexer.next_doc_type (XmLexer.fromStr
        "<!DOCTYPE greeting [<!ELEMENT greeting (#PCDATA)>]>")).2.offset = 51) ∧
    ((XmLexer.next_doc_type (XmLexer.ofBytes
        (bytesOf "<!DOCTYPE a " ++ [34, 62, 34, 32, 62]))).1 =
          .ok (some (.DocType ⟨9, 7⟩))) ∧
    ((XmLexer.next_doc_type (XmLexer.fromStr "<!DOCTYPE a [<!x>")).1 =
          .ok none) ∧
    (parse_doc_type_decl (ParseContext.fromStr
        "<!DOCTYPE greeting [<!ELEMENT greeting (#PCDATA)>]>") =
      .ok ⟨0, 51, 1, 1⟩
        ⟨"<!DOCTYPE greeting [<!ELEMENT greeting (#PCDATA)>]>".data,
          51, 1, 52⟩) := by
  decide

/-- C4: for every quoted literal whose matching closing quote arrives
before end of input (and whose content the validator accepts), `quote`
returns the span strictly between the two quote characters — offset one
past the opening quote, length exactly the content length, so the
returned length is the consumed length minus two — and end of input
before the closing quote is the Fatal expect-closing-quote error. -/
theorem claim_C4_quote_strictly_between :
    (∀ (f : Char → Except ReadError Unit) (dq : Bool) (content rest : List Char)
        (ctx : ParseContext),
      ctx.input.drop ctx.offset =
        (if dq then dquoteChar else squoteChar) ::
          (content ++ (if dq then dquoteChar else squoteChar) :: rest) →
      (∀ c ∈ content, c ≠ (if dq then dquoteChar else squoteChar)) →
      (∀ c ∈ content, f c = .ok ()) →
      quoteP f ctx =
        .ok ⟨ctx.offset + 1, content.length, ctx.line, ctx.col + 1⟩
          (ctx.advList ((if dq then dquoteChar else squoteChar) ::
            (content ++ [(if dq then dquoteChar else squoteChar)])))) ∧
    (∀ (f : Char → Except ReadError Unit) (dq : Bool) (content : List Char)
        (ctx : ParseContext),
      ctx.input.drop ctx.offset =
        (if dq then dquoteChar else squoteChar) :: content →
      (∀ c ∈ content, c ≠ (if dq then dquoteChar else squoteChar)) →
      (∀ c ∈ content, f c = .ok ()) →
      ∃ sp, quoteP f ctx =
        .err (.Fatal (.Quote (.suf (if dq then dquoteStr else squoteStr)) sp))) := by
  have hopen : ∀ (dq : Bool) (l : List Char) (ctx : ParseContext),
      ctx.input.drop ctx.offset = (if dq then dquoteChar else squoteChar) :: l →
      (por (fun c => pmap (fun _ => false) (liftR (ensure_char squoteChar c)))
           (fun c => pmap (fun _ => true) (liftR (ensure_char dquoteChar c))) ctx) =
        .ok dq (ctx.advChar (if dq then dquoteChar else squoteChar)) := by
    intro dq l ctx hdrop
    cases dq with
    | false =>
      unfold por
      beta_reduce
      rw [ensure_char_spec_ok squoteChar l ctx (by simpa using hdrop)]
      simp [liftR, liftK, pmapErr, pmap]
    | true =>
      unfold por
      beta_reduce
      rw [ensure_char_spec_ne dquoteChar squoteChar l ctx (by simpa using hdrop)
        (by decide)]
      simp only [liftR, liftK, pmapErr, pmap]
      rw [ensure_char_spec_ok dquoteChar l ctx (by simpa using hdrop)]
      rfl
  have hq10 : ∀ dq : Bool, (if dq then dquoteChar else squoteChar) ≠ Char.ofNat 10 := by
    intro dq; cases dq <;> decide
  constructor
  · intro f dq content rest ctx hdrop hnq hf
    unfold quoteP
    rw [hopen dq _ ctx hdrop]
    simp only [PR.bind]
    rw [quoteLoopM_closes content _ f dq _ _ rest _ (drop_advChar hdrop) hnq hf rfl]
    have hcons : ctx.advList ((if dq then dquoteChar else squoteChar) ::
        (content ++ [(if dq then dquoteChar else squoteChar)])) =
        (ctx.advChar (if dq then dquoteChar else squoteChar)).advList
          (content ++ [(if dq then dquoteChar else squoteChar)]) := rfl
    rw [hcons]
    rw [advChar_not_nl (hq10 dq)]
    simp only [ParseContext.span]
    congr 1
    simp
  · intro f dq content ctx hdrop hnq hf
    unfold quoteP
    rw [hopen dq _ ctx hdrop]
    simp only [PR.bind]
    exact quoteLoopM_eof content _ f dq _ _ _ (drop_advChar hdrop) hnq hf rfl

/-- C4 witness at concrete inputs: a double-quoted `ab` yields the span
(1,2) strictly between the quotes, and an unterminated single-quoted
literal is the Fatal expect-closing-quote error. -/
theorem claim_C4_quote_strictly_between_witness :
    quoteP okValidator (ParseContext.fromStr "\"ab\"") =
      .ok ⟨1, 2, 1, 2⟩ ((ParseContext.fromStr "\"ab\"").advList
        (dquoteChar :: ("ab".data ++ [dquoteChar]))) ∧
    (∃ sp, quoteP okValidator (ParseContext.fromChars (squoteChar :: "ab".data)) =
      .err (.Fatal (.Quote (.suf squoteStr) sp))) := by
  constructor
  · have h := claim_C4_quote_strictly_between.1 okValidator true "ab".data []
      (ParseContext.fromStr "\"ab\"") (by decide) (by decide) (fun c _ => rfl)
    simpa using h
  · have h := claim_C4_quote_strictly_between.2 okValidator false "ab".data
      (ParseContext.fromChars (squoteChar :: "ab".data)) (by decide) (by decide)
      (fun c _ => rfl)
    simpa using h

/-- C5 counterexample: the claim predicts that a failing Name scan does
not advance the cursor; instead the lexer's `next_name` on an input
whose first byte is whitespace fails with `LexerError::Name` and leaves
the cursor advanced by one byte (offset 1, not 0). -/
theorem claim_C5_counterexample :
    (XmLexer.fromStr " hello").next_name =
      (.err (.Name ⟨0, 0⟩), { XmLexer.fromStr " hello" with offset := 1 }) := by
  decide

/-- The quote-string loop on an input containing no closing quote
consumes every remaining byte before reporting the unterminated-quote
error. -/
theorem quoteStrLoop_unterminated (n : Nat) :
    ∀ (lx : XmLexer) (q : Nat) (start : XmlSpan),
      lx.input.length = lx.span.len → lx.offset ≤ lx.span.len →
      n = lx.remaining →
      (∀ i, lx.offset ≤ i → i < lx.span.len → lx.input.getD i 0 ≠ q) →
      quoteStrLoop q start n lx =
        (LexOut.err (LexerError.QuoteStr q
            (start.extend_to ⟨lx.span.offset + lx.span.len, 0⟩)),
         { lx with offset := lx.span.len }) := by
  induction n with
  | zero =>
    intro lx q start hin hle hrem _
    have hoff : lx.offset = lx.span.len := by
      have : lx.span.len - lx.offset = 0 := hrem.symm
      omega
    show (LexOut.err (LexerError.QuoteStr q (start.extend_to lx.next_span)), lx) = _
    have hns : lx.next_span = ⟨lx.span.offset + lx.span.len, 0⟩ := by
      unfold XmLexer.next_span XmLexer.remaining
      rw [hoff]
      simp
    rw [hns]
    have hself : ({ lx with offset := lx.span.len } : XmLexer) = lx := by
      rw [← hoff]
    rw [hself]
  | succ n ih =>
    intro lx q start hin hle hrem hnoq
    have hlt : lx.offset < lx.span.len := by
      have : lx.span.len - lx.offset = n + 1 := hrem.symm
      omega
    have hpeek : lx.peek = some (lx.input.getD lx.offset 0) := by
      unfold XmLexer.peek
      rw [if_neg (by omega)]
    unfold quoteStrLoop XmLexer.nextB
    rw [hpeek]
    simp only
    rw [if_neg (hnoq lx.offset (Nat.le_refl _) hlt)]
    have hres := ih lx.bump q start (by simpa [XmLexer.bump] using hin)
      (by simp [XmLexer.bump]; omega)
      (by simp only [XmLexer.bump, XmLexer.remaining] at hrem ⊢; omega)
      (fun i h1 h2 => hnoq i (by simp [XmLexer.bump] at h1; omega) h2)
    simpa [XmLexer.bump] using hres

/-- C5 (amended): the keyword-guarded scanners do back off without
moving the cursor — `next_comment` (and likewise `next_pi_start`)
returns `None` with the lexer unchanged when its opening keyword does
not match — but the failure paths of the two cited scanners do advance:
a failing `next_name` consumes exactly one byte before reporting
`LexerError::Name`, and `next_quote_str` on input whose closing quote
never arrives consumes every remaining byte. -/
theorem claim_C5_cursor_on_failure :
    (∀ lx : XmLexer, lx.state = .Markup →
      lx.unparsed_bytes_with 4 ≠ bytesOf "<!--" →
      lx.next_comment = (.ok none, lx)) ∧
    (∀ lx : XmLexer, lx.state = .Markup →
      lx.unparsed_bytes_with 2 ≠ bytesOf "<?" →
      lx.next_pi_start = (.ok none, lx)) ∧
    (∀ (lx : XmLexer) (c : Nat), lx.state = .Markup → lx.peek = some c →
      (is_ws c = true ∨ is_markup_char c = true ∨ c = 45 ∨ c = 46 ∨ c = 61) →
      lx.next_name = (.err (.Name ⟨lx.span.offset + lx.offset, 0⟩), lx.bump)) ∧
    (∀ (lx : XmLexer) (q : Nat), lx.state = .Markup → lx.peek = some q →
      (q = 39 ∨ q = 34) →
      lx.input.length = lx.span.len →
      (∀ i, lx.offset + 1 ≤ i → i < lx.span.len → lx.input.getD i 0 ≠ q) →
      lx.next_quote_str =
        (.err (.QuoteStr q ⟨lx.span.offset + lx.offset + 1,
            lx.span.len - (lx.offset + 1)⟩),
         { lx with offset := lx.span.len })) := by
  refine ⟨?_, ?_, ?_, ?_⟩
  · intro lx hst hpre
    unfold XmLexer.next_comment
    rw [if_neg (by simp [hst])]
    by_cases hrem : lx.remaining < 4
    · rw [if_pos hrem]
    · rw [if_neg hrem, if_pos hpre]
  · intro lx hst hpre
    unfold XmLexer.next_pi_start
    rw [if_neg (by simp [hst])]
    by_cases hrem : lx.remaining < 2
    · rw [if_pos hrem]
    · rw [if_neg hrem, if_pos hpre]
  · intro lx c hst hpeek hbad
    unfold XmLexer.next_name XmLexer.nextB
    rw [if_neg (by simp [hst]), hpeek]
    simp only
    rw [if_pos hbad]
    have hsp : ({ lx.next_span with len := 0 } : XmlSpan) =
        ⟨lx.span.offset + lx.offset, 0⟩ := by
      unfold XmLexer.next_span
      rfl
    rw [hsp]
  · intro lx q hst hpeek hq hin hnoq
    have hlt : lx.offset < lx.span.len := by
      by_contra hge
      push_neg at hge
      unfold XmLexer.peek at hpeek
      by_cases hco : lx.offset = lx.span.len
      · rw [if_pos hco] at hpeek
        exact Option.noConfusion hpeek
      · rw [if_neg hco] at hpeek
        have hdef : lx.input.getD lx.offset 0 = 0 :=
          List.getD_eq_default _ _ (by omega)
        rw [hdef] at hpeek
        have hzero : (0 : Nat) = q := Option.some.inj hpeek
        rcases hq with h | h <;> omega
    unfold XmLexer.next_quote_str XmLexer.nextB
    rw [if_neg (by simp [hst]), hpeek]
    simp only
    rw [if_pos hq]
    have hstart : ({ lx.bump.next_span with len := 0 } : XmlSpan) =
        ⟨lx.span.offset + lx.offset + 1, 0⟩ := by
      unfold XmLexer.next_span XmLexer.bump
      simp [Nat.add_assoc]
    rw [hstart]
    have hres := quoteStrLoop_unterminated lx.bump.remaining lx.bump q
      ⟨lx.span.offset + lx.offset + 1, 0⟩
      (by simpa [XmLexer.bump] using hin)
      (by simp [XmLexer.bump]; omega)
      rfl
      (fun i h1 h2 => hnoq i (by simpa [XmLexer.bump] using h1) h2)
    rw [hres]
    simp [XmLexer.bump, XmlSpan.extend_to]
    try omega

/-- C5 amended witness at concrete inputs: a non-comment prefix leaves
the cursor alone, a bad name-start byte is consumed, and an
unterminated single-quote literal is consumed to end of input. -/
theorem claim_C5_cursor_on_failure_witness :
    (XmLexer.fromStr "abc").next_comment = (.ok none, XmLexer.fromStr "abc") ∧
    (XmLexer.fromStr "abc").next_pi_start = (.ok none, XmLexer.fromStr "abc") ∧
    (XmLexer.fromStr "-x").next_name =
      (.err (.Name ⟨0, 0⟩), (XmLexer.fromStr "-x").bump) ∧
    (XmLexer.ofBytes [39, 97, 98]).next_quote_str =
      (.err (.QuoteStr 39 ⟨1, 2⟩), { XmLexer.ofBytes [39, 97, 98] with offset := 3 }) := by
  refine ⟨claim_C5_cursor_on_failure.1 _ rfl (by decide),
          claim_C5_cursor_on_failure.2.1 _ rfl (by decide), ?_, ?_⟩
  · have h := claim_C5_cursor_on_failure.2.2.1 (XmLexer.fromStr "-x") 45
      rfl (by decide) (by decide)
    simpa using h
  · have h := claim_C5_cursor_on_failure.2.2.2 (XmLexer.ofBytes [39, 97, 98]) 39
      rfl (by decide) (by decide) (by decide)
      (by
        intro i h1 h2
        have h1a : 1 ≤ i := by simpa [XmLexer.ofBytes] using h1
        have h2a : i < 3 := by simpa [XmLexer.ofBytes] using h2
        interval_cases i <;> decide)
    simpa using h

/-- Properties of `next_pi_start` used by the `next_token` dispatch:
never panics in `Markup` state, preserves input/span/state, keeps the
cursor monotone and bounded, advances strictly on a token whose span
stays inside the lexer span, and leaves the lexer untouched on `none`. -/
theorem next_pi_start_props (lx : XmLexer) (hoff : lx.offset ≤ lx.span.len)
    (hst : lx.state = .Markup) :
    (lx.next_pi_start.1 ≠ .panicked) ∧
    lx.next_pi_start.2.input = lx.input ∧
    lx.next_pi_start.2.span = lx.span ∧
    lx.next_pi_start.2.state = lx.state ∧
    lx.offset ≤ lx.next_pi_start.2.offset ∧
    lx.next_pi_start.2.offset ≤ lx.span.len ∧
    (∀ t, lx.next_pi_start.1 = .ok (some t) →
      lx.offset < lx.next_pi_start.2.offset ∧
      lx.span.offset ≤ (XmlToken.span t).offset ∧
      (XmlToken.span t).offset + (XmlToken.span t).len ≤
        lx.span.offset + lx.span.len) ∧
    (lx.next_pi_start.1 = .ok none → lx.next_pi_start.2 = lx) := by
  unfold XmLexer.next_pi_start
  rw [if_neg (by simp [hst])]
  by_cases h2 : lx.remaining < 2
  · rw [if_pos h2]
    exact ⟨by simp, rfl, rfl, rfl, le_refl _, hoff,
      fun t ht => by simp at ht, fun _ => rfl⟩
  · rw [if_neg h2]
    by_cases h3 : lx.unparsed_bytes_with 2 ≠ bytesOf "<?"
    · rw [if_pos h3]
      exact ⟨by simp, rfl, rfl, rfl, le_refl _, hoff,
        fun t ht => by simp at ht, fun _ => rfl⟩
    · rw [if_neg h3]
      have hrem : lx.offset + 2 ≤ lx.span.len := by
        unfold XmLexer.remaining at h2
        omega
      refine ⟨by simp, rfl, rfl, rfl, ?_, ?_, ?_, ?_⟩
      · simp [XmLexer.seek, XmLexer.next_span]
        omega
      · simp [XmLexer.seek, XmLexer.next_span]
        omega
      · intro t ht
        simp at ht
        subst ht
        simp [XmLexer.seek, XmLexer.next_span, XmlToken.span]
        omega
      · intro h
        simp at h

/-- Properties of `next_element_close_start_tag` (same shape as
`next_pi_start`, without the state assertion). -/
theorem next_close_start_props (lx : XmLexer) (hoff : lx.offset ≤ lx.span.len) :
    (lx.next_element_close_start_tag.1 ≠ .panicked) ∧
    lx.next_element_close_start_tag.2.input = lx.input ∧
    lx.next_element_close_start_tag.2.span = lx.span ∧
    lx.next_element_close_start_tag.2.state = lx.state ∧
    lx.offset ≤ lx.next_element_close_start_tag.2.offset ∧
    lx.next_element_close_start_tag.2.offset ≤ lx.span.len ∧
    (∀ t, lx.next_element_close_start_tag.1 = .ok (some t) →
      lx.offset < lx.next_element_close_start_tag.2.offset ∧
      lx.span.offset ≤ (XmlToken.span t).offset ∧
      (XmlToken.span t).offset + (XmlToken.span t).len ≤
        lx.span.offset + lx.span.len) ∧
    (lx.next_element_close_start_tag.1 = .ok none →
      lx.next_element_close_start_tag.2 = lx) := by
  unfold XmLexer.next_element_close_start_tag
  by_cases h2 : lx.remaining < 2
  · rw [if_pos h2]
    exact ⟨by simp, rfl, rfl, rfl, le_refl _, hoff,
      fun t ht => by simp at ht, fun _ => rfl⟩
  · rw [if_neg h2]
    by_cases h3 : lx.unparsed_bytes_with 2 ≠ bytesOf "</"
    · rw [if_pos h3]
      exact ⟨by simp, rfl, rfl, rfl, le_refl _, hoff,
        fun t ht => by simp at ht, fun _ => rfl⟩
    · rw [if_neg h3]
      have hrem : lx.offset + 2 ≤ lx.span.len := by
        unfold XmLexer.remaining at h2
        omega
      refine ⟨by simp, rfl, rfl, rfl, ?_, ?_, ?_, ?_⟩
      · simp [XmLexer.seek, XmLexer.next_span]
        omega
      · simp [XmLexer.seek, XmLexer.next_span]
        omega
      · intro t ht
        simp at ht
        subst ht
        simp [XmLexer.seek, XmLexer.next_span, XmlToken.span]
        omega
      · intro h
        simp at h

/-- Properties of `next_pi_end`: never panics, errors leave the cursor
alone, the success consumes the two keyword bytes whose span stays
inside the lexer span. -/
theorem next_pi_end_props (lx : XmLexer) (hoff : lx.offset ≤ lx.span.len) :
    (lx.next_pi_end.1 ≠ .panicked) ∧
    lx.next_pi_end.2.input = lx.input ∧
    lx.next_pi_end.2.span = lx.span ∧
    lx.next_pi_end.2.state = lx.state ∧
    lx.offset ≤ lx.next_pi_end.2.offset ∧
    lx.next_pi_end.2.offset ≤ lx.span.len ∧
    (∀ t, lx.next_pi_end.1 = .ok t →
      lx.offset < lx.next_pi_end.2.offset ∧
      lx.span.offset ≤ (XmlToken.span t).offset ∧
      (XmlToken.span t).offset + (XmlToken.span t).len ≤
        lx.span.offset + lx.span.len) := by
  unfold XmLexer.next_pi_end
  by_cases h2 : lx.remaining < 2
  · rw [if_pos h2]
    exact ⟨by simp, rfl, rfl, rfl, le_refl _, hoff, fun t ht => by simp at ht⟩
  · rw [if_neg h2]
    by_cases h3 : lx.unparsed_bytes_with 2 ≠ bytesOf "?>"
    · rw [if_pos h3]
      exact ⟨by simp, rfl, rfl, rfl, le_refl _, hoff, fun t ht => by simp at ht⟩
    · rw [if_neg h3]
      have hrem : lx.offset + 2 ≤ lx.span.len := by
        unfold XmLexer.remaining at h2
        omega
      refine ⟨by simp, rfl, rfl, rfl, ?_, ?_, ?_⟩
      · simp [XmLexer.seek, XmLexer.next_span]
        omega
      · simp [XmLexer.seek, XmLexer.next_span]
        omega
      · intro t ht
        simp at ht
        subst ht
        simp [XmLexer.seek, XmLexer.next_span, XmlToken.span]
        omega

/-- Properties of `next_empty_tag` (same shape as `next_pi_end`). -/
theorem next_empty_tag_props (lx : XmLexer) (hoff : lx.offset ≤ lx.span.len) :
    (lx.next_empty_tag.1 ≠ .panicked) ∧
    lx.next_empty_tag.2.input = lx.input ∧
    lx.next_empty_tag.2.span = lx.span ∧
    lx.next_empty_tag.2.state = lx.state ∧
    lx.offset ≤ lx.next_empty_tag.2.offset ∧
    lx.next_empty_tag.2.offset ≤ lx.span.len ∧
    (∀ t, lx.next_empty_tag.1 = .ok t →
      lx.offset < lx.next_empty_tag.2.offset ∧
      lx.span.offset ≤ (XmlToken.span t).offset ∧
      (XmlToken.span t).offset + (XmlToken.span t).len ≤
        lx.span.offset + lx.span.len) := by
  unfold XmLexer.next_empty_tag
  by_cases h2 : lx.remaining < 2
  · rw [if_pos h2]
    exact ⟨by simp, rfl, rfl, rfl, le_refl _, hoff, fun t ht => by simp at ht⟩
  · rw [if_neg h2]
    by_cases h3 : lx.unparsed_bytes_with 2 ≠ bytesOf "/>"
    · rw [if_pos h3]
      exact ⟨by simp, rfl, rfl, rfl, le_refl _, hoff, fun t ht => by simp at ht⟩
    · rw [if_neg h3]
      have hrem : lx.offset + 2 ≤ lx.span.len := by
        unfold XmLexer.remaining at h2
        omega
      refine ⟨by simp, rfl, rfl, rfl, ?_, ?_, ?_⟩
      · simp [XmLexer.seek, XmLexer.next_span]
        omega
      · simp [XmLexer.seek, XmLexer.next_span]
        omega
      · intro t ht
        simp at ht
        subst ht
        simp [XmLexer.seek, XmLexer.next_span, XmlToken.span]
        omega

/-- A successful peek means the cursor is strictly inside the span. -/
theorem peek_some_ne {lx : XmLexer} {c : Nat} (h : lx.peek = some c) :
    lx.offset ≠ lx.span.len := by
  intro he
  unfold XmLexer.peek at h
  rw [if_pos he] at h
  exact Option.noConfusion h

/-- A failed peek means the cursor sits at the end of the span. -/
theorem peek_none_eq {lx : XmLexer} (h : lx.peek = none) :
    lx.offset = lx.span.len := by
  by_cases he : lx.offset = lx.span.len
  · exact he
  · unfold XmLexer.peek at h
    rw [if_neg he] at h
    exact Option.noConfusion h

/-- Two lexers with equal fields are equal. -/
theorem lexer_ext {a b : XmLexer} (h1 : a.state = b.state)
    (h2 : a.input = b.input) (h3 : a.span = b.span) (h4 : a.offset = b.offset) :
    a = b := by
  cases a
  cases b
  simp_all

/-- The whitespace loop preserves input, span and state and moves the
cursor monotonically within the span. -/
theorem nextWsLoop_props (n : Nat) :
    ∀ lx : XmLexer, lx.offset ≤ lx.span.len →
      (nextWsLoop n lx).input = lx.input ∧
      (nextWsLoop n lx).span = lx.span ∧
      (nextWsLoop n lx).state = lx.state ∧
      lx.offset ≤ (nextWsLoop n lx).offset ∧
      (nextWsLoop n lx).offset ≤ lx.span.len := by
  induction n with
  | zero => intro lx h; exact ⟨rfl, rfl, rfl, le_refl _, h⟩
  | succ n ih =>
    intro lx h
    rw [show nextWsLoop (n + 1) lx =
        (match lx.peek with
         | some c => if is_ws c then nextWsLoop n lx.bump else lx
         | none => lx) from rfl]
    cases hpeek : lx.peek with
    | none => exact ⟨rfl, rfl, rfl, le_refl _, h⟩
    | some c =>
      dsimp only
      by_cases hws : is_ws c
      · rw [if_pos hws]
        have hne := peek_some_ne hpeek
        obtain ⟨i1, i2, i3, i4, i5⟩ := ih lx.bump
          (by show lx.offset + 1 ≤ lx.span.len; omega)
        have hb : lx.bump.offset = lx.offset + 1 := rfl
        exact ⟨i1, i2, i3, by rw [hb] at i4; omega, i5⟩
      · rw [if_neg hws]
        exact ⟨rfl, rfl, rfl, le_refl _, h⟩

/-- Properties of `next_ws`: never panics in `Markup` state, the token
case strictly advances with a span inside the lexer span, the `none`
case leaves the lexer untouched. -/
theorem next_ws_props (lx : XmLexer) (hoff : lx.offset ≤ lx.span.len)
    (hst : lx.state = .Markup) :
    (lx.next_ws.1 ≠ .panicked) ∧
    lx.next_ws.2.input = lx.input ∧
    lx.next_ws.2.span = lx.span ∧
    lx.next_ws.2.state = lx.state ∧
    lx.offset ≤ lx.next_ws.2.offset ∧
    lx.next_ws.2.offset ≤ lx.span.len ∧
    (∀ t, lx.next_ws.1 = .ok (some t) →
      lx.offset < lx.next_ws.2.offset ∧
      lx.span.offset ≤ (XmlToken.span t).offset ∧
      (XmlToken.span t).offset + (XmlToken.span t).len ≤
        lx.span.offset + lx.span.len) ∧
    (lx.next_ws.1 = .ok none → lx.next_ws.2 = lx) := by
  unfold XmLexer.next_ws
  rw [if_neg (by simp [hst])]
  dsimp only
  obtain ⟨i1, i2, i3, i4, i5⟩ := nextWsLoop_props lx.remaining lx hoff
  by_cases hl : 0 < (XmlSpan.extend_to { lx.next_span with len := 0 }
      (nextWsLoop lx.remaining lx).next_span).len
  · rw [if_pos hl]
    have hlen : (XmlSpan.extend_to { lx.next_span with len := 0 }
        (nextWsLoop lx.remaining lx).next_span).len =
        lx.span.offset + (nextWsLoop lx.remaining lx).offset -
          (lx.span.offset + lx.offset) := by
      simp [XmlSpan.extend_to, XmLexer.next_span, i2]
    rw [hlen] at hl
    refine ⟨by simp, i1, i2, i3, i4, i5, ?_, ?_⟩
    · intro t ht
      simp at ht
      subst ht
      simp [XmlToken.span, XmlSpan.extend_to, XmLexer.next_span, i2]
      omega
    · intro hcon
      simp at hcon
  · rw [if_neg hl]
    rw [show (XmlSpan.extend_to { lx.next_span with len := 0 }
        (nextWsLoop lx.remaining lx).next_span).len =
        lx.span.offset + (nextWsLoop lx.remaining lx).offset -
          (lx.span.offset + lx.offset) from by
      simp [XmlSpan.extend_to, XmLexer.next_span, i2]] at hl
    have hoeq : (nextWsLoop lx.remaining lx).offset = lx.offset := by omega
    have hfix : nextWsLoop lx.remaining lx = lx := lexer_ext i3 i1 i2 hoeq
    exact ⟨by simp, i1, i2, i3, i4, i5,
      fun t ht => by simp at ht, fun _ => hfix⟩

/-- The name loop preserves input, span and state and moves the cursor
monotonically within the span. -/
theorem nextNameLoop_props (n : Nat) :
    ∀ lx : XmLexer, lx.offset ≤ lx.span.len →
      (nextNameLoop n lx).input = lx.input ∧
      (nextNameLoop n lx).span = lx.span ∧
      (nextNameLoop n lx).state = lx.state ∧
      lx.offset ≤ (nextNameLoop n lx).offset ∧
      (nextNameLoop n lx).offset ≤ lx.span.len := by
  induction n with
  | zero => intro lx h; exact ⟨rfl, rfl, rfl, le_refl _, h⟩
  | succ n ih =>
    intro lx h
    rw [show nextNameLoop (n + 1) lx =
        (match lx.peek with
         | some c =>
           if is_ws c ∨ is_markup_char c ∨ c = 61 then lx
           else nextNameLoop n lx.bump
         | none => lx) from rfl]
    cases hpeek : lx.peek with
    | none => exact ⟨rfl, rfl, rfl, le_refl _, h⟩
    | some c =>
      dsimp only
      by_cases hc : is_ws c ∨ is_markup_char c ∨ c = 61
      · rw [if_pos hc]
        exact ⟨rfl, rfl, rfl, le_refl _, h⟩
      · rw [if_neg hc]
        have hne := peek_some_ne hpeek
        obtain ⟨i1, i2, i3, i4, i5⟩ := ih lx.bump
          (by show lx.offset + 1 ≤ lx.span.len; omega)
        have hb : lx.bump.offset = lx.offset + 1 := rfl
        exact ⟨i1, i2, i3, by rw [hb] at i4; omega, i5⟩

/-- Properties of `next_name` when a byte is pending (so the initial
`expect` cannot fire): never panics, preserves input/span/state, moves
the cursor monotonically within the span, and a returned token strictly
advances with a span inside the lexer span. -/
theorem next_name_props (lx : XmLexer) (c : Nat) (hoff : lx.offset ≤ lx.span.len)
    (hst : lx.state = .Markup) (hpeek : lx.peek = some c) :
    (lx.next_name.1 ≠ .panicked) ∧
    lx.next_name.2.input = lx.input ∧
    lx.next_name.2.span = lx.span ∧
    lx.next_name.2.state = lx.state ∧
    lx.offset ≤ lx.next_name.2.offset ∧
    lx.next_name.2.offset ≤ lx.span.len ∧
    (∀ t, lx.next_name.1 = .ok t →
      lx.offset < lx.next_name.2.offset ∧
      lx.span.offset ≤ (XmlToken.span t).offset ∧
      (XmlToken.span t).offset + (XmlToken.span t).len ≤
        lx.span.offset + lx.span.len) := by
  have hne := peek_some_ne hpeek
  unfold XmLexer.next_name
  rw [if_neg (by simp [hst])]
  rw [show lx.nextB = (some c, lx.bump) from by
    unfold XmLexer.nextB
    rw [hpeek]]
  dsimp only
  by_cases hbad : is_ws c ∨ is_markup_char c ∨ c = 45 ∨ c = 46 ∨ c = 61
  · rw [if_pos hbad]
    refine ⟨by simp, rfl, rfl, rfl, ?_, ?_, fun t ht => by simp at ht⟩
    · show lx.offset ≤ lx.offset + 1
      omega
    · show lx.offset + 1 ≤ lx.span.len
      omega
  · rw [if_neg hbad]
    obtain ⟨i1, i2, i3, i4, i5⟩ := nextNameLoop_props lx.bump.remaining lx.bump
      (by show lx.offset + 1 ≤ lx.span.len; omega)
    have hb : lx.bump.offset = lx.offset + 1 := rfl
    rw [hb] at i4
    have hbs : lx.bump.span = lx.span := rfl
    rw [hbs] at i2 i5
    refine ⟨by simp, i1, i2, i3,
      by show lx.offset ≤ (nextNameLoop lx.bump.remaining lx.bump).offset; omega,
      i5, ?_⟩
    intro t ht
    simp at ht
    subst ht
    dsimp only
    simp [XmlToken.span, XmlSpan.extend_to, XmLexer.next_span, i2]
    omega

/-- The character-data loop preserves input, span and state and moves
the cursor monotonically within the span. -/
theorem nextChardataLoop_props (n : Nat) :
    ∀ lx : XmLexer, lx.offset ≤ lx.span.len →
      (nextChardataLoop n lx).input = lx.input ∧
      (nextChardataLoop n lx).span = lx.span ∧
      (nextChardataLoop n lx).state = lx.state ∧
      lx.offset ≤ (nextChardataLoop n lx).offset ∧
      (nextChardataLoop n lx).offset ≤ lx.span.len := by
  induction n with
  | zero => intro lx h; exact ⟨rfl, rfl, rfl, le_refl _, h⟩
  | succ n ih =>
    intro lx h
    rw [show nextChardataLoop (n + 1) lx =
        (match lx.peek with
         | some c => if c = 60 then lx else nextChardataLoop n lx.bump
         | none => lx) from rfl]
    cases hpeek : lx.peek with
    | none => exact ⟨rfl, rfl, rfl, le_refl _, h⟩
    | some c =>
      dsimp only
      by_cases hc : c = 60
      · rw [if_pos hc]
        exact ⟨rfl, rfl, rfl, le_refl _, h⟩
      · rw [if_neg hc]
        have hne := peek_some_ne hpeek
        obtain ⟨i1, i2, i3, i4, i5⟩ := ih lx.bump
          (by show lx.offset + 1 ≤ lx.span.len; omega)
        have hb : lx.bump.offset = lx.offset + 1 := rfl
        exact ⟨i1, i2, i3, by rw [hb] at i4; omega, i5⟩

/-- Properties of `next_chardata`: never panics in `CharData` state,
switches to `Markup`, the token case strictly advances with a span
inside the lexer span, the `none` case only flips the state. -/
theorem next_chardata_props (lx : XmLexer) (hoff : lx.offset ≤ lx.span.len)
    (hst : lx.state = .CharData) :
    (lx.next_chardata.1 ≠ .panicked) ∧
    lx.next_chardata.2.input = lx.input ∧
    lx.next_chardata.2.span = lx.span ∧
    lx.next_chardata.2.state = .Markup ∧
    lx.offset ≤ lx.next_chardata.2.offset ∧
    lx.next_chardata.2.offset ≤ lx.span.len ∧
    (∀ t, lx.next_chardata.1 = .ok (some t) →
      lx.offset < lx.next_chardata.2.offset ∧
      lx.span.offset ≤ (XmlToken.span t).offset ∧
      (XmlToken.span t).offset + (XmlToken.span t).len ≤
        lx.span.offset + lx.span.len) ∧
    (lx.next_chardata.1 = .ok none →
      lx.next_chardata.2 = { lx with state := .Markup }) := by
  unfold XmLexer.next_chardata
  rw [if_neg (by simp [hst])]
  dsimp only
  obtain ⟨i1, i2, i3, i4, i5⟩ := nextChardataLoop_props lx.remaining lx hoff
  have hlen : (XmlSpan.extend_to { lx.next_span with len := 0 }
      (nextChardataLoop lx.remaining lx).next_span).len =
      lx.span.offset + (nextChardataLoop lx.remaining lx).offset -
        (lx.span.offset + lx.offset) := by
    simp [XmlSpan.extend_to, XmLexer.next_span, i2]
  by_cases hl : 0 < (XmlSpan.extend_to { lx.next_span with len := 0 }
      (nextChardataLoop lx.remaining lx).next_span).len
  · rw [if_pos hl]
    rw [hlen] at hl
    refine ⟨by simp, i1, i2, rfl, i4, i5, ?_, ?_⟩
    · intro t ht
      simp at ht
      subst ht
      simp [XmlToken.span, XmlSpan.extend_to, XmLexer.next_span, i2]
      omega
    · intro hcon
      simp at hcon
  · rw [if_neg hl]
    rw [hlen] at hl
    have hoeq : (nextChardataLoop lx.remaining lx).offset = lx.offset := by omega
    have hfix : nextChardataLoop lx.remaining lx = lx := lexer_ext i3 i1 i2 hoeq
    refine ⟨by simp, i1, i2, rfl, i4, i5, fun t ht => by simp at ht, ?_⟩
    intro _
    show ({ nextChardataLoop lx.remaining lx with state := .Markup } : XmLexer) = _
    rw [hfix]

/-- The quoted-literal loop preserves input, span and state, moves the
cursor monotonically within the span, never panics, and a returned
token has a span inside the lexer span provided the start span does. -/
theorem quoteStrLoop_props (q : Nat) (start : XmlSpan) (n : Nat) :
    ∀ lx : XmLexer, lx.offset ≤ lx.span.len →
      lx.span.offset ≤ start.offset →
      start.offset ≤ lx.span.offset + lx.span.len →
      ((quoteStrLoop q start n lx).1 ≠ .panicked) ∧
      (quoteStrLoop q start n lx).2.input = lx.input ∧
      (quoteStrLoop q start n lx).2.span = lx.span ∧
      (quoteStrLoop q start n lx).2.state = lx.state ∧
      lx.offset ≤ (quoteStrLoop q start n lx).2.offset ∧
      (quoteStrLoop q start n lx).2.offset ≤ lx.span.len ∧
      (∀ t, (quoteStrLoop q start n lx).1 = .ok t →
        lx.offset < (quoteStrLoop q start n lx).2.offset ∧
        lx.span.offset ≤ (XmlToken.span t).offset ∧
        (XmlToken.span t).offset + (XmlToken.span t).len ≤
          lx.span.offset + lx.span.len) := by
  induction n with
  | zero =>
    intro lx h hs1 hs2
    rw [show quoteStrLoop q start 0 lx =
        ((.err (.QuoteStr q (start.extend_to lx.next_span)), lx) :
          LexOut XmlToken × XmLexer) from rfl]
    exact ⟨by simp, rfl, rfl, rfl, le_refl _, h, fun t ht => by simp at ht⟩
  | succ n ih =>
    intro lx h hs1 hs2
    rw [show quoteStrLoop q start (n + 1) lx =
        (match lx.nextB with
         | (none, lx1) =>
           (.err (.QuoteStr q (start.extend_to lx1.next_span)), lx1)
         | (some c, lx1) =>
           if c = q then
             let e : XmlSpan :=
               { lx1.next_span with offset := lx1.next_span.offset - 1 }
             (.ok (.QuoteStr (start.extend_to e)), lx1)
           else
             quoteStrLoop q start n lx1) from rfl]
    cases hpeek : lx.peek with
    | none =>
      rw [show lx.nextB = (none, lx) from by
        unfold XmLexer.nextB
        rw [hpeek]]
      exact ⟨by simp, rfl, rfl, rfl, le_refl _, h, fun t ht => by simp at ht⟩
    | some c =>
      have hne := peek_some_ne hpeek
      rw [show lx.nextB = (some c, lx.bump) from by
        unfold XmLexer.nextB
        rw [hpeek]]
      dsimp only
      by_cases hc : c = q
      · rw [if_pos hc]
        refine ⟨by simp, rfl, rfl, rfl,
          by show lx.offset ≤ lx.offset + 1; omega,
          by show lx.offset + 1 ≤ lx.span.len; omega, ?_⟩
        intro t ht
        simp at ht
        subst ht
        refine ⟨by show lx.offset < lx.offset + 1; omega, ?_, ?_⟩
        · simpa [XmlToken.span, XmlSpan.extend_to] using hs1
        · simp [XmlToken.span, XmlSpan.extend_to, XmLexer.next_span,
            XmLexer.bump]
          omega
      · rw [if_neg hc]
        obtain ⟨i1, i2, i3, i4, i5, i6, i7⟩ := ih lx.bump
          (by show lx.offset + 1 ≤ lx.span.len; omega) hs1 hs2
        have hb : lx.bump.offset = lx.offset + 1 := rfl
        rw [hb] at i5
        refine ⟨i1, i2, i3, i4, by omega, i6, ?_⟩
        intro t ht
        obtain ⟨j1, j2, j3⟩ := i7 t ht
        rw [hb] at j1
        exact ⟨by omega, j2, j3⟩

/-- Properties of `next_quote_str` when the pending byte is a quote (so
neither the `unwrap` nor the `assert!` fires): never panics, preserves
input/span/state, strictly advances, and a returned token span stays
inside the lexer span. -/
theorem next_quote_str_props (lx : XmLexer) (q : Nat)
    (hoff : lx.offset ≤ lx.span.len) (hst : lx.state = .Markup)
    (hpeek : lx.peek = some q) (hq : q = 39 ∨ q = 34) :
    (lx.next_quote_str.1 ≠ .panicked) ∧
    lx.next_quote_str.2.input = lx.input ∧
    lx.next_quote_str.2.span = lx.span ∧
    lx.next_quote_str.2.state = lx.state ∧
    lx.offset ≤ lx.next_quote_str.2.offset ∧
    lx.next_quote_str.2.offset ≤ lx.span.len ∧
    (∀ t, lx.next_quote_str.1 = .ok t →
      lx.offset < lx.next_quote_str.2.offset ∧
      lx.span.offset ≤ (XmlToken.span t).offset ∧
      (XmlToken.span t).offset + (XmlToken.span t).len ≤
        lx.span.offset + lx.span.len) := by
  have hne := peek_some_ne hpeek
  unfold XmLexer.next_quote_str
  rw [if_neg (by simp [hst])]
  rw [show lx.nextB = (some q, lx.bump) from by
    unfold XmLexer.nextB
    rw [hpeek]]
  dsimp only
  rw [if_pos hq]
  show ((quoteStrLoop q { offset := lx.bump.next_span.offset, len := 0 }
      lx.bump.remaining lx.bump).1 ≠ .panicked) ∧
    (quoteStrLoop q { offset := lx.bump.next_span.offset, len := 0 }
      lx.bump.remaining lx.bump).2.input = lx.input ∧
    (quoteStrLoop q { offset := lx.bump.next_span.offset, len := 0 }
      lx.bump.remaining lx.bump).2.span = lx.span ∧
    (quoteStrLoop q { offset := lx.bump.next_span.offset, len := 0 }
      lx.bump.remaining lx.bump).2.state = lx.state ∧
    (lx.offset ≤ (quoteStrLoop q { offset := lx.bump.next_span.offset, len := 0 }
      lx.bump.remaining lx.bump).2.offset) ∧
    ((quoteStrLoop q { offset := lx.bump.next_span.offset, len := 0 }
      lx.bump.remaining lx.bump).2.offset ≤ lx.span.len) ∧
    (∀ t, (quoteStrLoop q { offset := lx.bump.next_span.offset, len := 0 }
        lx.bump.remaining lx.bump).1 = .ok t →
      lx.offset < (quoteStrLoop q { offset := lx.bump.next_span.offset, len := 0 }
        lx.bump.remaining lx.bump).2.offset ∧
      lx.span.offset ≤ (XmlToken.span t).offset ∧
      (XmlToken.span t).offset + (XmlToken.span t).len ≤
        lx.span.offset + lx.span.len)
  obtain ⟨i1, i2, i3, i4, i5, i6, i7⟩ :=
    quoteStrLoop_props q { offset := lx.bump.next_span.offset, len := 0 }
      lx.bump.remaining lx.bump
      (by show lx.offset + 1 ≤ lx.span.len; omega)
      (by show lx.span.offset ≤ lx.span.offset + (lx.offset + 1); omega)
      (by show lx.span.offset + (lx.offset + 1) ≤ lx.span.offset + lx.span.len
          omega)
  have hb : lx.bump.offset = lx.offset + 1 := rfl
  rw [hb] at i5
  refine ⟨i1, i2, i3, i4, by omega, i6, ?_⟩
  intro t ht
  obtain ⟨j1, j2, j3⟩ := i7 t ht
  rw [hb] at j1
  exact ⟨by omega, j2, j3⟩

/-- One unfolding of `markerScan`, with the structure updates spelled
out field by field. -/
theorem markerScan_succ (marker : Nat) (mkTok : XmlSpan → XmlToken)
    (mkErr : XmlSpan → LexerError) (n : Nat) (start : XmlSpan) (lx : XmLexer) :
    markerScan marker mkTok mkErr (n + 1) start lx =
      (match lx.nextB with
       | (none, lx1) => (.err (mkErr start), lx1)
       | (some c, lx1) =>
         if c = marker then
           markerRun marker mkTok mkErr n start
             { offset := lx1.next_span.offset - 1, len := lx1.next_span.len } lx1
         else markerScan marker mkTok mkErr n start lx1) := rfl

/-- One unfolding of `markerRun`, with the structure updates spelled
out field by field. -/
theorem markerRun_succ (marker : Nat) (mkTok : XmlSpan → XmlToken)
    (mkErr : XmlSpan → LexerError) (n : Nat) (start markers : XmlSpan)
    (lx : XmLexer) :
    markerRun marker mkTok mkErr (n + 1) start markers lx =
      (match lx.nextB with
       | (none, lx1) => (.err (mkErr start), lx1)
       | (some c, lx1) =>
         if c = marker then markerRun marker mkTok mkErr n start markers lx1
         else
           if 2 < (markers.extend_to lx1.next_span).len ∧ c = 62 then
             (.ok (mkTok (start.extend_to_inclusive
                { offset := (markers.extend_to lx1.next_span).offset,
                  len := (markers.extend_to lx1.next_span).len - 3 })),
              { lx1 with state := .CharData })
           else markerScan marker mkTok mkErr n start lx1) := rfl

/-- Joint properties of the `next_cdata` / `next_comment` scanning
loops: no panic, input and span preserved, cursor monotone and bounded,
and any returned token span lies inside the lexer span (given that the
start and marker spans do). -/
theorem marker_props (marker : Nat) (mkTok : XmlSpan → XmlToken)
    (mkErr : XmlSpan → LexerError) (hmk : ∀ s, XmlToken.span (mkTok s) = s)
    (n : Nat) :
    (∀ (start : XmlSpan) (lx : XmLexer), lx.offset ≤ lx.span.len →
      lx.span.offset ≤ start.offset →
      start.offset ≤ lx.span.offset + lx.span.len →
      ((markerScan marker mkTok mkErr n start lx).1 ≠ .panicked) ∧
      (markerScan marker mkTok mkErr n start lx).2.input = lx.input ∧
      (markerScan marker mkTok mkErr n start lx).2.span = lx.span ∧
      lx.offset ≤ (markerScan marker mkTok mkErr n start lx).2.offset ∧
      (markerScan marker mkTok mkErr n start lx).2.offset ≤ lx.span.len ∧
      (∀ t, (markerScan marker mkTok mkErr n start lx).1 = .ok t →
        lx.span.offset ≤ (XmlToken.span t).offset ∧
        (XmlToken.span t).offset + (XmlToken.span t).len ≤
          lx.span.offset + lx.span.len)) ∧
    (∀ (start markers : XmlSpan) (lx : XmLexer), lx.offset ≤ lx.span.len →
      lx.span.offset ≤ start.offset →
      start.offset ≤ lx.span.offset + lx.span.len →
      markers.offset ≤ lx.span.offset + lx.span.len →
      ((markerRun marker mkTok mkErr n start markers lx).1 ≠ .panicked) ∧
      (markerRun marker mkTok mkErr n start markers lx).2.input = lx.input ∧
      (markerRun marker mkTok mkErr n start markers lx).2.span = lx.span ∧
      lx.offset ≤ (markerRun marker mkTok mkErr n start markers lx).2.offset ∧
      (markerRun marker mkTok mkErr n start markers lx).2.offset ≤ lx.span.len ∧
      (∀ t, (markerRun marker mkTok mkErr n start markers lx).1 = .ok t →
        lx.span.offset ≤ (XmlToken.span t).offset ∧
        (XmlToken.span t).offset + (XmlToken.span t).len ≤
          lx.span.offset + lx.span.len)) := by
  induction n with
  | zero =>
    constructor
    · intro start lx h hs1 hs2
      rw [show markerScan marker mkTok mkErr 0 start lx =
          ((.err (mkErr start), lx) : LexOut XmlToken × XmLexer) from rfl]
      exact ⟨by simp, rfl, rfl, le_refl _, h, fun t ht => by simp at ht⟩
    · intro start markers lx h hs1 hs2 hm
      rw [show markerRun marker mkTok mkErr 0 start markers lx =
          ((.err (mkErr start), lx) : LexOut XmlToken × XmLexer) from rfl]
      exact ⟨by simp, rfl, rfl, le_refl _, h, fun t ht => by simp at ht⟩
  | succ n ih =>
    obtain ⟨ihS, ihR⟩ := ih
    constructor
    · intro start lx h hs1 hs2
      rw [markerScan_succ]
      cases hpeek : lx.peek with
      | none =>
        rw [show lx.nextB = (none, lx) from by
          unfold XmLexer.nextB
          rw [hpeek]]
        exact ⟨by simp, rfl, rfl, le_refl _, h, fun t ht => by simp at ht⟩
      | some c =>
        have hne := peek_some_ne hpeek
        rw [show lx.nextB = (some c, lx.bump) from by
          unfold XmLexer.nextB
          rw [hpeek]]
        dsimp only
        have hb : lx.bump.offset = lx.offset + 1 := rfl
        by_cases hc : c = marker
        · rw [if_pos hc]
          obtain ⟨i1, i2, i3, i4, i5, i6⟩ := ihR start
            { offset := lx.bump.next_span.offset - 1, len := lx.bump.next_span.len }
            lx.bump
            (by show lx.offset + 1 ≤ lx.span.len; omega) hs1 hs2
            (by show lx.span.offset + (lx.offset + 1) - 1 ≤
                  lx.span.offset + lx.span.len
                omega)
          rw [hb] at i4
          exact ⟨i1, i2, i3, by omega, i5, i6⟩
        · rw [if_neg hc]
          obtain ⟨i1, i2, i3, i4, i5, i6⟩ := ihS start lx.bump
            (by show lx.offset + 1 ≤ lx.span.len; omega) hs1 hs2
          rw [hb] at i4
          exact ⟨i1, i2, i3, by omega, i5, i6⟩
    · intro start markers lx h hs1 hs2 hm
      rw [markerRun_succ]
      cases hpeek : lx.peek with
      | none =>
        rw [show lx.nextB = (none, lx) from by
          unfold XmLexer.nextB
          rw [hpeek]]
        exact ⟨by simp, rfl, rfl, le_refl _, h, fun t ht => by simp at ht⟩
      | some c =>
        have hne := peek_some_ne hpeek
        rw [show lx.nextB = (some c, lx.bump) from by
          unfold XmLexer.nextB
          rw [hpeek]]
        dsimp only
        have hb : lx.bump.offset = lx.offset + 1 := rfl
        by_cases hc : c = marker
        · rw [if_pos hc]
          obtain ⟨i1, i2, i3, i4, i5, i6⟩ := ihR start markers lx.bump
            (by show lx.offset + 1 ≤ lx.span.len; omega) hs1 hs2 hm
          rw [hb] at i4
          exact ⟨i1, i2, i3, by omega, i5, i6⟩
        · rw [if_neg hc]
          by_cases hterm : 2 < (markers.extend_to lx.bump.next_span).len ∧ c = 62
          · rw [if_pos hterm]
            refine ⟨by simp, rfl, rfl,
              by show lx.offset ≤ lx.offset + 1; omega,
              by show lx.offset + 1 ≤ lx.span.len; omega, ?_⟩
            intro t ht
            simp at ht
            subst ht
            rw [hmk]
            refine ⟨hs1, ?_⟩
            obtain ⟨ht1, ht2⟩ := hterm
            simp [XmlSpan.extend_to, XmLexer.next_span,
              show lx.bump.span = lx.span from rfl, hb] at ht1
            simp [XmlSpan.extend_to_inclusive, XmlSpan.extend_to,
              XmLexer.next_span, show lx.bump.span = lx.span from rfl, hb]
            omega
          · rw [if_neg hterm]
            obtain ⟨i1, i2, i3, i4, i5, i6⟩ := ihS start lx.bump
              (by show lx.offset + 1 ≤ lx.span.len; omega) hs1 hs2
            rw [hb] at i4
            exact ⟨i1, i2, i3, by omega, i5, i6⟩

/-- Properties of `next_cdata`: never panics in `Markup` state,
preserves input/span, keeps the cursor monotone and bounded, a token
strictly advances with a span inside the lexer span, and the
keyword-mismatch case leaves the lexer untouched. -/
theorem next_cdata_props (lx : XmLexer) (hoff : lx.offset ≤ lx.span.len)
    (hst : lx.state = .Markup) :
    (lx.next_cdata.1 ≠ .panicked) ∧
    lx.next_cdata.2.input = lx.input ∧
    lx.next_cdata.2.span = lx.span ∧
    lx.offset ≤ lx.next_cdata.2.offset ∧
    lx.next_cdata.2.offset ≤ lx.span.len ∧
    (∀ t, lx.next_cdata.1 = .ok (some t) →
      lx.offset < lx.next_cdata.2.offset ∧
      lx.span.offset ≤ (XmlToken.span t).offset ∧
      (XmlToken.span t).offset + (XmlToken.span t).len ≤
        lx.span.offset + lx.span.len) ∧
    (lx.next_cdata.1 = .ok none → lx.next_cdata.2 = lx) := by
  unfold XmLexer.next_cdata
  rw [if_neg (by simp [hst])]
  by_cases h9 : lx.remaining < 9
  · rw [if_pos h9]
    exact ⟨by simp, rfl, rfl, le_refl _, hoff,
      fun t ht => by simp at ht, fun _ => rfl⟩
  · rw [if_neg h9]
    by_cases hkw : lx.unparsed_bytes_with 9 ≠ bytesOf "<![CDATA["
    · rw [if_pos hkw]
      exact ⟨by simp, rfl, rfl, le_refl _, hoff,
        fun t ht => by simp at ht, fun _ => rfl⟩
    · rw [if_neg hkw]
      have h9le : lx.offset + 9 ≤ lx.span.len := by
        unfold XmLexer.remaining at h9
        omega
      dsimp only
      have hseek : lx.seek (lx.next_span.offset + 9) =
          ⟨lx.state, lx.input, lx.span, lx.offset + 9⟩ :=
        lexer_ext rfl rfl rfl (by
          show lx.next_span.offset + 9 - lx.span.offset = lx.offset + 9
          unfold XmLexer.next_span
          dsimp only
          omega)
      rw [hseek]
      obtain ⟨i1, i2, i3, i4, i5, i6⟩ :=
        (marker_props 93 XmlToken.CData LexerError.CData (fun _ => rfl)
            ((⟨lx.state, lx.input, lx.span, lx.offset + 9⟩ : XmLexer).remaining)).1
          { offset := lx.next_span.offset + 9, len := 0 }
          ⟨lx.state, lx.input, lx.span, lx.offset + 9⟩
          (by show lx.offset + 9 ≤ lx.span.len; omega)
          (by show lx.span.offset ≤ lx.next_span.offset + 9
              unfold XmLexer.next_span
              dsimp only
              omega)
          (by show lx.next_span.offset + 9 ≤ lx.span.offset + lx.span.len
              unfold XmLexer.next_span
              dsimp only
              omega)
      rcases hscan : markerScan 93 XmlToken.CData LexerError.CData
          ((⟨lx.state, lx.input, lx.span, lx.offset + 9⟩ : XmLexer).remaining)
          { offset := lx.next_span.offset + 9, len := 0 }
          ⟨lx.state, lx.input, lx.span, lx.offset + 9⟩ with ⟨r1, lx2⟩
      rw [hscan] at i1 i2 i3 i4 i5 i6
      dsimp only at i1 i2 i3 i4 i5 i6
      cases r1 with
      | panicked => exact absurd rfl i1
      | err e =>
        dsimp only
        exact ⟨by simp, i2, i3, by omega, i5,
          fun t ht => by simp at ht, fun hcon => by simp at hcon⟩
      | ok tok =>
        dsimp only
        refine ⟨by simp, i2, i3, by omega, i5, ?_, fun hcon => by simp at hcon⟩
        intro t ht
        simp at ht
        subst ht
        obtain ⟨j1, j2⟩ := i6 tok rfl
        exact ⟨by omega, j1, j2⟩

/-- Properties of `next_comment` (same shape as `next_cdata`, with the
four-byte `<!--` keyword and the dash marker). -/
theorem next_comment_props (lx : XmLexer) (hoff : lx.offset ≤ lx.span.len)
    (hst : lx.state = .Markup) :
    (lx.next_comment.1 ≠ .panicked) ∧
    lx.next_comment.2.input = lx.input ∧
    lx.next_comment.2.span = lx.span ∧
    lx.offset ≤ lx.next_comment.2.offset ∧
    lx.next_comment.2.offset ≤ lx.span.len ∧
    (∀ t, lx.next_comment.1 = .ok (some t) →
      lx.offset < lx.next_comment.2.offset ∧
      lx.span.offset ≤ (XmlToken.span t).offset ∧
      (XmlToken.span t).offset + (XmlToken.span t).len ≤
        lx.span.offset + lx.span.len) ∧
    (lx.next_comment.1 = .ok none → lx.next_comment.2 = lx) := by
  unfold XmLexer.next_comment
  rw [if_neg (by simp [hst])]
  by_cases h4 : lx.remaining < 4
  · rw [if_pos h4]
    exact ⟨by simp, rfl, rfl, le_refl _, hoff,
      fun t ht => by simp at ht, fun _ => rfl⟩
  · rw [if_neg h4]
    by_cases hkw : lx.unparsed_bytes_with 4 ≠ bytesOf "<!--"
    · rw [if_pos hkw]
      exact ⟨by simp, rfl, rfl, le_refl _, hoff,
        fun t ht => by simp at ht, fun _ => rfl⟩
    · rw [if_neg hkw]
      have h4le : lx.offset + 4 ≤ lx.span.len := by
        unfold XmLexer.remaining at h4
        omega
      dsimp only
      have hseek : lx.seek (lx.next_span.offset + 4) =
          ⟨lx.state, lx.input, lx.span, lx.offset + 4⟩ :=
        lexer_ext rfl rfl rfl (by
          show lx.next_span.offset + 4 - lx.span.offset = lx.offset + 4
          unfold XmLexer.next_span
          dsimp only
          omega)
      rw [hseek]
      obtain ⟨i1, i2, i3, i4, i5, i6⟩ :=
        (marker_props 45 XmlToken.Comment LexerError.Comment (fun _ => rfl)
            ((⟨lx.state, lx.input, lx.span, lx.offset + 4⟩ : XmLexer).remaining)).1
          { offset := lx.next_span.offset + 4, len := 0 }
          ⟨lx.state, lx.input, lx.span, lx.offset + 4⟩
          (by show lx.offset + 4 ≤ lx.span.len; omega)
          (by show lx.span.offset ≤ lx.next_span.offset + 4
              unfold XmLexer.next_span
              dsimp only
              omega)
          (by show lx.next_span.offset + 4 ≤ lx.span.offset + lx.span.len
              unfold XmLexer.next_span
              dsimp only
              omega)
      rcases hscan : markerScan 45 XmlToken.Comment LexerError.Comment
          ((⟨lx.state, lx.input, lx.span, lx.offset + 4⟩ : XmLexer).remaining)
          { offset := lx.next_span.offset + 4, len := 0 }
          ⟨lx.state, lx.input, lx.span, lx.offset + 4⟩ with ⟨r1, lx2⟩
      rw [hscan] at i1 i2 i3 i4 i5 i6
      dsimp only at i1 i2 i3 i4 i5 i6
      cases r1 with
      | panicked => exact absurd rfl i1
      | err e =>
        dsimp only
        exact ⟨by simp, i2, i3, by omega, i5,
          fun t ht => by simp at ht, fun hcon => by simp at hcon⟩
      | ok tok =>
        dsimp only
        refine ⟨by simp, i2, i3, by omega, i5, ?_, fun hcon => by simp at hcon⟩
        intro t ht
        simp at ht
        subst ht
        obtain ⟨j1, j2⟩ := i6 tok rfl
        exact ⟨by omega, j1, j2⟩

/-- Joint properties of the `Markup`-state dispatch of `next_token`:
never panics, preserves input and span, keeps the cursor bounded, a
returned token strictly advances the cursor and carries a span inside
the lexer span, and `none` is returned only at end of input, leaving
the lexer untouched. -/
theorem next_token_markup_props (lx : XmLexer)
    (hoff : lx.offset ≤ lx.span.len) (hst : lx.state = .Markup) :
    (lx.next_token_markup.1 ≠ .panicked) ∧
    lx.next_token_markup.2.input = lx.input ∧
    lx.next_token_markup.2.span = lx.span ∧
    lx.offset ≤ lx.next_token_markup.2.offset ∧
    lx.next_token_markup.2.offset ≤ lx.span.len ∧
    (∀ t, lx.next_token_markup.1 = .ok (some t) →
      lx.offset < lx.next_token_markup.2.offset ∧
      lx.span.offset ≤ (XmlToken.span t).offset ∧
      (XmlToken.span t).offset + (XmlToken.span t).len ≤
        lx.span.offset + lx.span.len) ∧
    (lx.next_token_markup.1 = .ok none →
      lx.next_token_markup.2 = lx ∧ lx.offset = lx.span.len) := by
  unfold XmLexer.next_token_markup
  cases hpeek : lx.peek with
  | none =>
    exact ⟨by simp, rfl, rfl, le_refl _, hoff, fun t ht => by simp at ht,
      fun _ => ⟨rfl, peek_none_eq hpeek⟩⟩
  | some c =>
    have hne := peek_some_ne hpeek
    split
    · -- the opening angle bracket: cdata, comment, pi start, close tag,
      -- then the plain element-open token
      rename_i heq
      have hc : c = 60 := by simpa using heq
      subst hc
      obtain ⟨a1, a2, a3, a4, a5, a6, a7⟩ := next_cdata_props lx hoff hst
      rcases hca : lx.next_cdata with ⟨rc, lxc⟩
      rw [hca] at a1 a2 a3 a4 a5 a6 a7
      dsimp only at a1 a2 a3 a4 a5 a6 a7
      cases rc with
      | panicked => exact absurd rfl a1
      | err e =>
        dsimp only
        exact ⟨by simp, a2, a3, a4, a5, fun t ht => by simp at ht,
          fun hcon => by simp at hcon⟩
      | ok o =>
        cases o with
        | some t0 =>
          dsimp only
          refine ⟨by simp, a2, a3, a4, a5, ?_, fun hcon => by simp at hcon⟩
          intro t ht
          simp at ht
          subst ht
          exact a6 t0 rfl
        | none =>
          have hfix := a7 rfl
          rw [hfix]
          dsimp only
          obtain ⟨b1, b2, b3, b4, b5, b6, b7⟩ := next_comment_props lx hoff hst
          rcases hcb : lx.next_comment with ⟨rb, lxb⟩
          rw [hcb] at b1 b2 b3 b4 b5 b6 b7
          dsimp only at b1 b2 b3 b4 b5 b6 b7
          cases rb with
          | panicked => exact absurd rfl b1
          | err e =>
            dsimp only
            exact ⟨by simp, b2, b3, b4, b5, fun t ht => by simp at ht,
              fun hcon => by simp at hcon⟩
          | ok o =>
            cases o with
            | some t0 =>
              dsimp only
              refine ⟨by simp, b2, b3, b4, b5, ?_, fun hcon => by simp at hcon⟩
              intro t ht
              simp at ht
              subst ht
              exact b6 t0 rfl
            | none =>
              have hfix := b7 rfl
              rw [hfix]
              dsimp only
              obtain ⟨d1, d2, d3, d4, d5, d6, d7, d8⟩ :=
                next_pi_start_props lx hoff hst
              rcases hcd : lx.next_pi_start with ⟨rd, lxd⟩
              rw [hcd] at d1 d2 d3 d4 d5 d6 d7 d8
              dsimp only at d1 d2 d3 d4 d5 d6 d7 d8
              cases rd with
              | panicked => exact absurd rfl d1
              | err e =>
                dsimp only
                exact ⟨by simp, d2, d3, d5, d6, fun t ht => by simp at ht,
                  fun hcon => by simp at hcon⟩
              | ok o =>
                cases o with
                | some t0 =>
                  dsimp only
                  refine ⟨by simp, d2, d3, d5, d6, ?_,
                    fun hcon => by simp at hcon⟩
                  intro t ht
                  simp at ht
                  subst ht
                  exact d7 t0 rfl
                | none =>
                  have hfix := d8 rfl
                  rw [hfix]
                  dsimp only
                  obtain ⟨e1, e2, e3, e4, e5, e6, e7, e8⟩ :=
                    next_close_start_props lx hoff
                  rcases hce : lx.next_element_close_start_tag with ⟨re, lxe⟩
                  rw [hce] at e1 e2 e3 e4 e5 e6 e7 e8
                  dsimp only at e1 e2 e3 e4 e5 e6 e7 e8
                  cases re with
                  | panicked => exact absurd rfl e1
                  | err e =>
                    dsimp only
                    exact ⟨by simp, e2, e3, e5, e6, fun t ht => by simp at ht,
                      fun hcon => by simp at hcon⟩
                  | ok o =>
                    cases o with
                    | some t0 =>
                      dsimp only
                      refine ⟨by simp, e2, e3, e5, e6, ?_,
                        fun hcon => by simp at hcon⟩
                      intro t ht
                      simp at ht
                      subst ht
                      exact e7 t0 rfl
                    | none =>
                      have hfix := e8 rfl
                      rw [hfix]
                      dsimp only
                      refine ⟨by simp, rfl, rfl,
                        by show lx.offset ≤ lx.offset + 1; omega,
                        by show lx.offset + 1 ≤ lx.span.len; omega, ?_,
                        fun hcon => by simp at hcon⟩
                      intro t ht
                      simp at ht
                      subst ht
                      refine ⟨by show lx.offset < lx.offset + 1; omega, ?_, ?_⟩
                      · show lx.span.offset ≤ lx.next_span.offset
                        unfold XmLexer.next_span
                        dsimp only
                        omega
                      · show lx.next_span.offset + lx.next_span.len ≤
                          lx.span.offset + lx.span.len
                        unfold XmLexer.next_span XmLexer.remaining
                        dsimp only
                        split
                        · omega
                        · omega
    · -- a question mark: expect the processing-instruction end keyword
      rename_i heq
      have hc : c = 63 := by simpa using heq
      subst hc
      obtain ⟨a1, a2, a3, a4, a5, a6, a7⟩ := next_pi_end_props lx hoff
      rcases hca : lx.next_pi_end with ⟨rc, lxc⟩
      rw [hca] at a1 a2 a3 a4 a5 a6 a7
      dsimp only at a1 a2 a3 a4 a5 a6 a7
      cases rc with
      | panicked => exact absurd rfl a1
      | err e =>
        dsimp only [LexOut.map]
        exact ⟨by simp, a2, a3, a5, a6, fun t ht => by simp at ht,
          fun hcon => by simp at hcon⟩
      | ok t0 =>
        dsimp only [LexOut.map]
        refine ⟨by simp, a2, a3, a5, a6, ?_, fun hcon => by simp at hcon⟩
        intro t ht
        simp at ht
        subst ht
        exact a7 t0 rfl
    · -- a slash: expect the empty-tag keyword
      rename_i heq
      have hc : c = 47 := by simpa using heq
      subst hc
      obtain ⟨a1, a2, a3, a4, a5, a6, a7⟩ := next_empty_tag_props lx hoff
      rcases hca : lx.next_empty_tag with ⟨rc, lxc⟩
      rw [hca] at a1 a2 a3 a4 a5 a6 a7
      dsimp only at a1 a2 a3 a4 a5 a6 a7
      cases rc with
      | panicked => exact absurd rfl a1
      | err e =>
        dsimp only [LexOut.map]
        exact ⟨by simp, a2, a3, a5, a6, fun t ht => by simp at ht,
          fun hcon => by simp at hcon⟩
      | ok t0 =>
        dsimp only [LexOut.map]
        refine ⟨by simp, a2, a3, a5, a6, ?_, fun hcon => by simp at hcon⟩
        intro t ht
        simp at ht
        subst ht
        exact a7 t0 rfl
    · -- an equals sign: a one-byte token
      rename_i heq
      have hc : c = 61 := by simpa using heq
      subst hc
      dsimp only
      refine ⟨by simp, rfl, rfl,
        by show lx.offset ≤ lx.offset + 1; omega,
        by show lx.offset + 1 ≤ lx.span.len; omega, ?_,
        fun hcon => by simp at hcon⟩
      intro t ht
      simp at ht
      subst ht
      refine ⟨by show lx.offset < lx.offset + 1; omega, ?_, ?_⟩
      · show lx.span.offset ≤ lx.next_span.offset
        unfold XmLexer.next_span
        dsimp only
        omega
      · show lx.next_span.offset + lx.next_span.len ≤
          lx.span.offset + lx.span.len
        unfold XmLexer.next_span XmLexer.remaining
        dsimp only
        split
        · omega
        · omega
    · -- a double quote: a quoted literal
      rename_i heq
      have hc : c = 34 := by simpa using heq
      subst hc
      obtain ⟨a1, a2, a3, a4, a5, a6, a7⟩ :=
        next_quote_str_props lx 34 hoff hst hpeek (Or.inr rfl)
      rcases hca : lx.next_quote_str with ⟨rc, lxc⟩
      rw [hca] at a1 a2 a3 a4 a5 a6 a7
      dsimp only at a1 a2 a3 a4 a5 a6 a7
      cases rc with
      | panicked => exact absurd rfl a1
      | err e =>
        dsimp only [LexOut.map]
        exact ⟨by simp, a2, a3, a5, a6, fun t ht => by simp at ht,
          fun hcon => by simp at hcon⟩
      | ok t0 =>
        dsimp only [LexOut.map]
        refine ⟨by simp, a2, a3, a5, a6, ?_, fun hcon => by simp at hcon⟩
        intro t ht
        simp at ht
        subst ht
        exact a7 t0 rfl
    · -- a single quote: a quoted literal
      rename_i heq
      have hc : c = 39 := by simpa using heq
      subst hc
      obtain ⟨a1, a2, a3, a4, a5, a6, a7⟩ :=
        next_quote_str_props lx 39 hoff hst hpeek (Or.inl rfl)
      rcases hca : lx.next_quote_str with ⟨rc, lxc⟩
      rw [hca] at a1 a2 a3 a4 a5 a6 a7
      dsimp only at a1 a2 a3 a4 a5 a6 a7
      cases rc with
      | panicked => exact absurd rfl a1
      | err e =>
        dsimp only [LexOut.map]
        exact ⟨by simp, a2, a3, a5, a6, fun t ht => by simp at ht,
          fun hcon => by simp at hcon⟩
      | ok t0 =>
        dsimp only [LexOut.map]
        refine ⟨by simp, a2, a3, a5, a6, ?_, fun hcon => by simp at hcon⟩
        intro t ht
        simp at ht
        subst ht
        exact a7 t0 rfl
    · -- a closing angle bracket: a one-byte token
      rename_i heq
      have hc : c = 62 := by simpa using heq
      subst hc
      dsimp only
      refine ⟨by simp, rfl, rfl,
        by show lx.offset ≤ lx.offset + 1; omega,
        by show lx.offset + 1 ≤ lx.span.len; omega, ?_,
        fun hcon => by simp at hcon⟩
      intro t ht
      simp at ht
      subst ht
      refine ⟨by show lx.offset < lx.offset + 1; omega, ?_, ?_⟩
      · show lx.span.offset ≤ lx.next_span.offset
        unfold XmLexer.next_span
        dsimp only
        omega
      · show lx.next_span.offset + lx.next_span.len ≤
          lx.span.offset + lx.span.len
        unfold XmLexer.next_span XmLexer.remaining
        dsimp only
        split
        · omega
        · omega
    · -- any other byte: whitespace, then a name
      rename_i c2 hne60 hne63 hne47 hne61 hne34 hne39 hne62 heq
      have hc : c2 = c := by simpa using heq.symm
      subst hc
      obtain ⟨a1, a2, a3, a4, a5, a6, a7, a8⟩ := next_ws_props lx hoff hst
      rcases hca : lx.next_ws with ⟨rc, lxc⟩
      rw [hca] at a1 a2 a3 a4 a5 a6 a7 a8
      dsimp only at a1 a2 a3 a4 a5 a6 a7 a8
      cases rc with
      | panicked => exact absurd rfl a1
      | err e =>
        dsimp only
        exact ⟨by simp, a2, a3, a5, a6, fun t ht => by simp at ht,
          fun hcon => by simp at hcon⟩
      | ok o =>
        cases o with
        | some t0 =>
          dsimp only
          refine ⟨by simp, a2, a3, a5, a6, ?_, fun hcon => by simp at hcon⟩
          intro t ht
          simp at ht
          subst ht
          exact a7 t0 rfl
        | none =>
          have hfix := a8 rfl
          rw [hfix]
          dsimp only
          obtain ⟨b1, b2, b3, b4, b5, b6, b7⟩ :=
            next_name_props lx c2 hoff hst hpeek
          rcases hcb : lx.next_name with ⟨rb, lxb⟩
          rw [hcb] at b1 b2 b3 b4 b5 b6 b7
          dsimp only at b1 b2 b3 b4 b5 b6 b7
          cases rb with
          | panicked => exact absurd rfl b1
          | err e =>
            dsimp only [LexOut.map]
            exact ⟨by simp, b2, b3, b5, b6, fun t ht => by simp at ht,
              fun hcon => by simp at hcon⟩
          | ok t0 =>
            dsimp only [LexOut.map]
            refine ⟨by simp, b2, b3, b5, b6, ?_, fun hcon => by simp at hcon⟩
            intro t ht
            simp at ht
            subst ht
            exact b7 t0 rfl
    · -- the impossible arm: the scrutinee is a `some`
      rename_i heq
      simp at heq

/-- Properties of `next_token` for a lexer whose cursor sits inside its
span: never panics, preserves input and span, keeps the cursor monotone
and bounded, strictly advances on a token whose span lies inside the
lexer span, and returns `none` only at end of input. -/
theorem next_token_props (lx : XmLexer) (hoff : lx.offset ≤ lx.span.len) :
    (lx.next_token.1 ≠ .panicked) ∧
    lx.next_token.2.input = lx.input ∧
    lx.next_token.2.span = lx.span ∧
    lx.offset ≤ lx.next_token.2.offset ∧
    lx.next_token.2.offset ≤ lx.span.len ∧
    (∀ t, lx.next_token.1 = .ok (some t) →
      lx.offset < lx.next_token.2.offset ∧
      lx.span.offset ≤ (XmlToken.span t).offset ∧
      (XmlToken.span t).offset + (XmlToken.span t).len ≤
        lx.span.offset + lx.span.len) ∧
    (lx.next_token.1 = .ok none →
      lx.offset = lx.span.len ∧ lx.next_token.2.offset = lx.span.len) := by
  unfold XmLexer.next_token
  cases hstate : lx.state with
  | Markup =>
    obtain ⟨m1, m2, m3, m4, m5, m6, m7⟩ := next_token_markup_props lx hoff hstate
    exact ⟨m1, m2, m3, m4, m5, m6,
      fun h => ⟨(m7 h).2, by rw [(m7 h).1]; exact (m7 h).2⟩⟩
  | CharData =>
    obtain ⟨c1, c2, c3, c4, c5, c6, c7, c8⟩ := next_chardata_props lx hoff hstate
    rcases hcc : lx.next_chardata with ⟨rc, lxc⟩
    rw [hcc] at c1 c2 c3 c4 c5 c6 c7 c8
    dsimp only at c1 c2 c3 c4 c5 c6 c7 c8
    cases rc with
    | panicked => exact absurd rfl c1
    | err e =>
      dsimp only
      exact ⟨by simp, c2, c3, c5, c6, fun t ht => by simp at ht,
        fun hcon => by simp at hcon⟩
    | ok o =>
      cases o with
      | some t0 =>
        dsimp only
        refine ⟨by simp, c2, c3, ?_, c6, ?_, fun hcon => by simp at hcon⟩
        · exact (c7 t0 rfl).1.le
        · intro t ht
          simp at ht
          subst ht
          exact c7 t0 rfl
      | none =>
        have hfix := c8 rfl
        rw [hfix]
        obtain ⟨m1, m2, m3, m4, m5, m6, m7⟩ :=
          next_token_markup_props ⟨.Markup, lx.input, lx.span, lx.offset⟩
            hoff rfl
        exact ⟨m1, m2, m3, m4, m5, m6,
          fun h => ⟨(m7 h).2, by rw [(m7 h).1]; exact (m7 h).2⟩⟩

/-- C8: for a lexer whose cursor sits inside its bounded span,
`next_token` always resolves in finitely many steps to a token, to
`none`, or to an error — never to a panic; a returned token strictly
advances the cursor, the cursor never leaves the bounded input span (so
repeated calls reach the end of the input), and `none` is returned
exactly at end of input. -/
theorem claim_C8_next_token_terminates (lx : XmLexer)
    (hoff : lx.offset ≤ lx.span.len) :
    (lx.next_token.1 ≠ .panicked) ∧
    lx.next_token.2.input = lx.input ∧
    lx.next_token.2.span = lx.span ∧
    lx.offset ≤ lx.next_token.2.offset ∧
    lx.next_token.2.offset ≤ lx.span.len ∧
    (∀ t, lx.next_token.1 = .ok (some t) →
      lx.offset < lx.next_token.2.offset) ∧
    (lx.next_token.1 = .ok none → lx.offset = lx.span.len) := by
  obtain ⟨m1, m2, m3, m4, m5, m6, m7⟩ := next_token_props lx hoff
  exact ⟨m1, m2, m3, m4, m5, fun t ht => (m6 t ht).1, fun h => (m7 h).1⟩

/-- C8 witness: a concrete lexer over `<a>` satisfies the cursor bound
and therefore the termination and progress properties. -/
theorem claim_C8_next_token_terminates_witness :
    ((XmLexer.fromStr "<a>").offset ≤ (XmLexer.fromStr "<a>").span.len) ∧
    (((XmLexer.fromStr "<a>").next_token.1 ≠ .panicked) ∧
     (XmLexer.fromStr "<a>").next_token.2.input = (XmLexer.fromStr "<a>").input ∧
     (XmLexer.fromStr "<a>").next_token.2.span = (XmLexer.fromStr "<a>").span ∧
     (XmLexer.fromStr "<a>").offset ≤ (XmLexer.fromStr "<a>").next_token.2.offset ∧
     (XmLexer.fromStr "<a>").next_token.2.offset ≤ (XmLexer.fromStr "<a>").span.len ∧
     (∀ t, (XmLexer.fromStr "<a>").next_token.1 = .ok (some t) →
       (XmLexer.fromStr "<a>").offset < (XmLexer.fromStr "<a>").next_token.2.offset) ∧
     ((XmLexer.fromStr "<a>").next_token.1 = .ok none →
       (XmLexer.fromStr "<a>").offset = (XmLexer.fromStr "<a>").span.len)) :=
  ⟨by decide, claim_C8_next_token_terminates (XmLexer.fromStr "<a>") (by decide)⟩

/-- C10: every span inside a token returned by `next_token` lies within
the lexer input span — its offset is at least the input span offset and
its exclusive end does not pass the input span end — and the call
preserves the input span and the cursor bound, so the same holds for
every further `next_token` call in the sequence. -/
theorem claim_C10_token_spans_inside_input (lx : XmLexer)
    (hoff : lx.offset ≤ lx.span.len) :
    (∀ t, lx.next_token.1 = .ok (some t) →
      lx.span.offset ≤ (XmlToken.span t).offset ∧
      (XmlToken.span t).offset + (XmlToken.span t).len ≤
        lx.span.offset + lx.span.len) ∧
    lx.next_token.2.span = lx.span ∧
    lx.next_token.2.offset ≤ lx.next_token.2.span.len := by
  obtain ⟨m1, m2, m3, m4, m5, m6, m7⟩ := next_token_props lx hoff
  exact ⟨fun t ht => ⟨(m6 t ht).2.1, (m6 t ht).2.2⟩, m3, by rw [m3]; exact m5⟩

/-- C10 witness: the concrete lexer over `<a>` satisfies the cursor
bound and therefore the token-span containment. -/
theorem claim_C10_token_spans_inside_input_witness :
    ((XmLexer.fromStr "<a>hi").offset ≤ (XmLexer.fromStr "<a>hi").span.len) ∧
    ((∀ t, (XmLexer.fromStr "<a>hi").next_token.1 = .ok (some t) →
        (XmLexer.fromStr "<a>hi").span.offset ≤ (XmlToken.span t).offset ∧
        (XmlToken.span t).offset + (XmlToken.span t).len ≤
          (XmLexer.fromStr "<a>hi").span.offset +
            (XmLexer.fromStr "<a>hi").span.len) ∧
     (XmLexer.fromStr "<a>hi").next_token.2.span = (XmLexer.fromStr "<a>hi").span ∧
     (XmLexer.fromStr "<a>hi").next_token.2.offset ≤
       (XmLexer.fromStr "<a>hi").next_token.2.span.len) :=
  ⟨by decide,
    claim_C10_token_spans_inside_input (XmLexer.fromStr "<a>hi") (by decide)⟩

end Rexml
